import Mathlib

/-!
Verification of the awless template compiler (`template/compile.go`) and the
concurrent fetcher with its one-shot cache (package `fetch`).

The Go code is embedded shallowly: each compile pass becomes a Lean function
over an explicit template/environment state; the fetch cache becomes a pure
state-passing structure.  Go maps whose iteration order is observable are
embedded as association lists, so that one Go map corresponds to many list
representations (one per iteration order); structural equality of maps is the
permutation relation on those lists.  A Go run-time panic is a distinguished
outcome of the `PassResult` type, separate from an error return.
-/

namespace Awless

/-- Modelled from the spec: the AST value model (`template/internal/ast` is not
in the sources).  A composite value is a literal string (resolved), a hole with
its candidate completions, a reference `$name`, an alias, or an opaque resolved
interface value. -/
inductive CompositeValue where
  | str : String → CompositeValue
  | hole : String → List String → CompositeValue
  | ref : String → CompositeValue
  | aliasv : String → CompositeValue
  | iface : String → CompositeValue
deriving DecidableEq, Repr

/-- Modelled from the spec: `Value()` of a value returns the concrete value,
or nil when the value is unresolved (holes, refs, aliases). -/
def cvValue : CompositeValue → Option String
  | .str s => some s
  | .iface s => some s
  | _ => none

/-- Modelled from the spec: `IsResolved` holds exactly when the value carries a
concrete value. -/
def cvIsResolved (v : CompositeValue) : Bool := (cvValue v).isSome

/-- Modelled from the spec: `GetRefs` of a value (WithRefs capability). -/
def cvRefs : CompositeValue → List String
  | .ref r => [r]
  | _ => []

/-- Modelled from the spec: `GetHoles` of a value (WithHoles capability),
as a (name, candidates) list. -/
def cvHoles : CompositeValue → List (String × List String)
  | .hole n cands => [(n, cands)]
  | _ => []

/-- Modelled from the spec: `GetAliases` of a value (WithAlias capability). -/
def cvAliases : CompositeValue → List String
  | .aliasv a => [a]
  | _ => []

/-- Modelled from the spec: `ReplaceRef(ident, v)` rewrites a matching
reference into the replacement value and leaves everything else alone. -/
def cvReplaceRef (ident : String) (v : CompositeValue) : CompositeValue → CompositeValue
  | .ref r => if r = ident then v else .ref r
  | w => w

/-- Modelled from the spec: the AST node model.  A command node carries action,
entity, a parameter map (embedded as an association list in iteration order)
and the optionally bound command name; a declaration node carries an identifier
and an expression node; a value node carries one value. -/
inductive Node where
  | command : String → String → List (String × CompositeValue) → Option String → Node
  | decl : String → Node → Node
  | value : CompositeValue → Node
deriving DecidableEq, Repr

/-- A template is its ordered statement list (each statement wraps one node). -/
structure Template where
  statements : List Node
deriving DecidableEq, Repr

/-- Refs carried by an expression node (command or value); declaration nodes do
not themselves implement WithRefs in the ast package. -/
def nodeRefs : Node → List String
  | .command _ _ ps _ => (ps.map (fun kv => cvRefs kv.2)).flatten
  | .value v => cvRefs v
  | .decl _ _ => []

/-- The refs checked for a statement by `checkInvalidReferenceDeclarationsPass`:
the node's own refs, or for a declaration the refs of its expression. -/
def stmtRefs : Node → List String
  | .decl _ e => nodeRefs e
  | n => nodeRefs n

/-- Identifiers of the declarations of a statement list, in order. -/
def declIdents (sts : List Node) : List String :=
  sts.filterMap (fun st => match st with
    | .decl i _ => some i
    | _ => none)

end Awless

namespace Awless

/-! ### Association-list helpers (Go map embedding) -/

/-- Lookup in an association list (Go map read). -/
def lookupA {α : Type} : List (String × α) → String → Option α
  | [], _ => none
  | (k', v) :: t, k => if k' = k then some v else lookupA t k

/-- Update of an association list (Go map write `m[k] = v`): replaces the
binding in place when the key is present, appends it otherwise. -/
def updA {α : Type} : List (String × α) → String → α → List (String × α)
  | [], k, v => [(k, v)]
  | (k', v') :: t, k, v => if k' = k then (k, v) :: t else (k', v') :: updA t k v

theorem lookupA_updA_self {α : Type} (l : List (String × α)) (k : String) (v : α) :
    lookupA (updA l k v) k = some v := by
  induction l with
  | nil => simp [updA, lookupA]
  | cons h t ih =>
    by_cases hk : h.1 = k
    · simp [updA, hk, lookupA]
    · simp [updA, hk, lookupA, ih]

theorem lookupA_updA_other {α : Type} (l : List (String × α)) (k k' : String) (v : α)
    (h : k ≠ k') : lookupA (updA l k v) k' = lookupA l k' := by
  induction l with
  | nil => simp [updA, lookupA, h]
  | cons hd t ih =>
    by_cases hk : hd.1 = k
    · simp [updA, hk, lookupA, h]
    · simp only [updA, if_neg hk, lookupA]
      by_cases hk' : hd.1 = k'
      · simp [hk']
      · simp [hk', ih]

/-! ### The fetch cache (`fetch` package, `cache` / `keyCache`) -/

/-- One slot of the fetch cache: the `sync.Once` guard (`fired`), the stored
result (Go `interface{}`, `none` embedding nil) and the stored error. -/
structure KeyCache (α : Type) where
  fired : Bool
  result : Option α
  err : Option String
deriving DecidableEq, Repr

/-- The fetch cache: a map from keys to one-shot slots. -/
structure FCache (α : Type) where
  cached : List (String × KeyCache α)
deriving DecidableEq, Repr

def newFCache {α : Type} : FCache α := ⟨[]⟩

/-- A loader: `func() (interface{}, error)`. -/
def Loader (α : Type) := Unit → Option α × Option String

/-- `cache.Get(key, funcs...)`: fetch the slot, creating an empty one when the
key is absent; when a loader is supplied and the slot's once-guard has not
fired, run the first loader once and store its result and error; return the
slot's current (result, err).  The third component records whether a loader was
invoked during this call. -/
def cacheGet {α : Type} (c : FCache α) (key : String) (funcs : List (Loader α)) :
    (Option α × Option String) × FCache α × Bool :=
  let slot := (lookupA c.cached key).getD ⟨false, none, none⟩
  match funcs with
  | f :: _ =>
    if slot.fired then
      ((slot.result, slot.err), ⟨updA c.cached key slot⟩, false)
    else
      let r := f ()
      ((r.1, r.2), ⟨updA c.cached key ⟨true, r.1, r.2⟩⟩, true)
  | [] => ((slot.result, slot.err), ⟨updA c.cached key slot⟩, false)

/-- `cache.Store(key, val)`: replace the slot for `key` with a fresh slot that
already holds `val` and no error; its once-guard has not fired. -/
def cacheStore {α : Type} (c : FCache α) (key : String) (val : Option α) : FCache α :=
  ⟨updA c.cached key ⟨false, val, none⟩⟩

/-- `cache.Reset()`: drop all slots. -/
def cacheReset {α : Type} (_ : FCache α) : FCache α := ⟨[]⟩

end Awless

namespace Awless

/-! ### The compile environment and the pass machinery -/

/-- Modelled from the spec: a `params.Rule` as consumed by the compiler, i.e.
its two operations: `Missing` (the required keys absent from a key set) and
`Validate` (a validation verdict, `some msg` on failure). -/
structure PRule where
  missing : List String → List String
  validate : List String → Option String

/-- Modelled from the spec: a registered command and the optional capabilities
the compiler inspects via runtime type tests.  `ruleCap` is the
`Params() params.Rule` capability and `validateCap` the
`ValidateCommand(params, refKeys) []error` capability. -/
structure Command where
  ruleCap : Option PRule
  validateCap : Option (List (String × CompositeValue) → List String → List String)

/-- Modelled from the spec: the compile environment (`env.Compiling`): the
capability functions supplied by the surrounding program and the accumulators
written during compilation. -/
structure CompileEnv where
  lookupCommandFunc : Option (String → Option Command)
  missingHolesFunc : Option (String → List String → String)
  aliasFunc : Option (String → String → String → String)
  fillers : List (String × String)
  processedFillers : List (String × String)
  resolvedVariables : List (String × String)

/-- Outcome of a pass or of `Compile`: a normal value, an error return, or a
Go run-time panic (which is not an error return). -/
inductive PassResult (α : Type) where
  | ok : α → PassResult α
  | err : String → PassResult α
  | panic : String → PassResult α
deriving Repr

/-- The type of one compile pass (`compileFunc`). -/
def PassFun := Template → CompileEnv → PassResult (Template × CompileEnv)

/-- `multiPass.compile`: run the passes in order, stopping at the first error
(or panic). -/
def multiPassCompile (passes : List PassFun) (tpl : Template) (cenv : CompileEnv) :
    PassResult (Template × CompileEnv) :=
  match passes with
  | [] => .ok (tpl, cenv)
  | p :: rest =>
    match p tpl cenv with
    | .ok (tpl', cenv') => multiPassCompile rest tpl' cenv'
    | .err e => .err e
    | .panic e => .panic e

/-- `Compile(tpl, cenv, mode)`: run the given mode's passes in order. -/
def Compile (tpl : Template) (cenv : CompileEnv) (mode : List PassFun) :
    PassResult (Template × CompileEnv) :=
  multiPassCompile mode tpl cenv

end Awless

namespace Awless

/-! ### checkInvalidReferenceDeclarationsPass -/

/-- The first ref of `refs` that is not a known ref, if any. -/
def firstUndefinedRef (known : List String) (refs : List String) : Option String :=
  refs.find? (fun r => ¬ known.contains r)

/-- The undefined-reference error message (verbatim, including the trailing
newline the Go format string carries). -/
def undefinedRefMsg (r : String) : String :=
  "using reference '$" ++ r ++ "' but '" ++ r ++ "' is undefined in template\n"

/-- The duplicate-declaration error message (verbatim, including the trailing
newline the Go format string carries). -/
def duplicateRefMsg (r : String) : String :=
  "using reference '$" ++ r ++ "' but '" ++ r ++ "' has already been assigned in template\n"

/-- The forward scan of `checkInvalidReferenceDeclarationsPass`: walk the
statements with the set of identifiers declared so far; fail on the first
statement using an unknown ref (checking a declaration's expression), then on a
declaration whose identifier is already known; otherwise add the declaration's
identifier and continue. -/
def checkRefsScan (known : List String) : List Node → Except String Unit
  | [] => .ok ()
  | st :: rest =>
    match firstUndefinedRef known (stmtRefs st) with
    | some r => .error (undefinedRefMsg r)
    | none =>
      match st with
      | .decl ident _ =>
        if known.contains ident then .error (duplicateRefMsg ident)
        else checkRefsScan (known ++ [ident]) rest
      | _ => checkRefsScan known rest

/-- `checkInvalidReferenceDeclarationsPass`: the forward scan starting from an
empty set of known identifiers; the template and env are returned unchanged on
success. -/
def checkInvalidReferenceDeclarationsPass : PassFun := fun tpl cenv =>
  match checkRefsScan [] tpl.statements with
  | .ok () => .ok (tpl, cenv)
  | .error e => .err e

/-- Stated from the claim: the same check computed non-operationally, by
recomputing at each statement index the identifiers declared by strictly
earlier statements. -/
def checkRefsSpec (sts : List Node) : Except String Unit :=
  go 0
where
  go (i : Nat) : Except String Unit :=
    if h : i < sts.length then
      let st := sts.get ⟨i, h⟩
      let earlier := declIdents (sts.take i)
      match firstUndefinedRef earlier (stmtRefs st) with
      | some r => .error (undefinedRefMsg r)
      | none =>
        match st with
        | .decl ident _ =>
          if earlier.contains ident then .error (duplicateRefMsg ident)
          else go (i + 1)
        | _ => go (i + 1)
    else .ok ()
  termination_by sts.length - i

/-- The scoping property the pass enforces, stated non-operationally: every
ref of a statement is declared by a strictly earlier statement, and no
declaration redeclares an identifier already declared earlier. -/
def ScopedOK (sts : List Node) : Prop :=
  (∀ pre st post, sts = pre ++ st :: post → ∀ r ∈ stmtRefs st, r ∈ declIdents pre) ∧
  (∀ pre ident e post, sts = pre ++ .decl ident e :: post → ident ∉ declIdents pre)

theorem firstUndefinedRef_eq_none {known refs : List String} :
    firstUndefinedRef known refs = none ↔ ∀ r ∈ refs, r ∈ known := by
  simp [firstUndefinedRef, List.find?_eq_none]

theorem declIdents_append (a b : List Node) :
    declIdents (a ++ b) = declIdents a ++ declIdents b := by
  simp [declIdents, List.filterMap_append]

theorem declIdents_cons_decl (i : String) (e : Node) (t : List Node) :
    declIdents (.decl i e :: t) = i :: declIdents t := by
  simp [declIdents, List.filterMap_cons]

theorem declIdents_cons_command (a en : String) (ps : List (String × CompositeValue))
    (c : Option String) (t : List Node) :
    declIdents (.command a en ps c :: t) = declIdents t := by
  simp [declIdents, List.filterMap_cons]

theorem declIdents_cons_value (v : CompositeValue) (t : List Node) :
    declIdents (.value v :: t) = declIdents t := by
  simp [declIdents, List.filterMap_cons]

/-- The per-statement obligation at one split of the statement list: every ref
of the statement is known or declared earlier, and a declaration's identifier
is neither known nor declared earlier. -/
def RefCond (known : List String) (pre : List Node) (st : Node) : Prop :=
  (∀ r ∈ stmtRefs st, r ∈ known ++ declIdents pre) ∧
  (∀ ident e, st = .decl ident e → ident ∉ known ++ declIdents pre)

theorem forall_split_cons {C : List Node → Node → Prop} {x : Node} {rest : List Node} :
    (∀ pre st post, x :: rest = pre ++ st :: post → C pre st) ↔
      (C [] x ∧ ∀ pre st post, rest = pre ++ st :: post → C (x :: pre) st) := by
  constructor
  · intro h
    exact ⟨h [] x rest rfl, fun pre st post hs => h (x :: pre) st post (by simp [hs])⟩
  · rintro ⟨h0, h⟩ pre st post hs
    cases pre with
    | nil =>
      injection hs with h1 h2
      subst h1
      exact h0
    | cons p0 pre' =>
      injection hs with h1 h2
      subst h1
      exact h pre' st post h2

theorem refCond_shift (known : List String) (x : Node) (pre : List Node) (st : Node) :
    RefCond known (x :: pre) st ↔ RefCond (known ++ declIdents [x]) pre st := by
  have hsplit : declIdents (x :: pre) = declIdents [x] ++ declIdents pre := by
    simpa using declIdents_append [x] pre
  simp [RefCond, hsplit, List.append_assoc]

theorem checkRefsScan_ok_iff (sts : List Node) : ∀ known : List String,
    checkRefsScan known sts = .ok () ↔
      ∀ pre st post, sts = pre ++ st :: post → RefCond known pre st := by
  induction sts with
  | nil =>
    intro known
    constructor
    · intro _ pre st post h
      exact absurd h (by simp)
    · intro _
      simp [checkRefsScan]
  | cons x rest ih =>
    intro known
    rw [forall_split_cons]
    have hq : (∀ pre st post, rest = pre ++ st :: post → RefCond known (x :: pre) st)
        ↔ (∀ pre st post, rest = pre ++ st :: post →
            RefCond (known ++ declIdents [x]) pre st) := by
      constructor
      · intro h pre st post hs
        exact (refCond_shift known x pre st).mp (h pre st post hs)
      · intro h pre st post hs
        exact (refCond_shift known x pre st).mpr (h pre st post hs)
    rw [hq, ← ih (known ++ declIdents [x])]
    by_cases hfind : firstUndefinedRef known (stmtRefs x) = none
    · have hrefs0 : ∀ r ∈ stmtRefs x, r ∈ known := firstUndefinedRef_eq_none.mp hfind
      match x with
      | .decl ident e =>
        by_cases hmem : ident ∈ known
        · constructor
          · intro h
            simp [checkRefsScan, hfind, hmem] at h
          · intro ⟨hc, _⟩
            exact absurd (by simpa [declIdents] using hmem)
              (hc.2 ident e rfl).elim
        · have step : checkRefsScan known (Node.decl ident e :: rest) =
              checkRefsScan (known ++ declIdents [Node.decl ident e]) rest := by
            simp [checkRefsScan, hfind, hmem, declIdents]
          rw [step]
          constructor
          · intro h
            refine ⟨⟨?_, ?_⟩, h⟩
            · intro r hr
              simpa [declIdents] using hrefs0 r hr
            · intro ident' e' heq hc
              injection heq with h1 h2
              subst h1
              exact hmem (by simpa [declIdents] using hc)
          · intro ⟨_, h⟩
            exact h
      | .command a en ps c =>
        have step : checkRefsScan known (Node.command a en ps c :: rest) =
            checkRefsScan (known ++ declIdents [Node.command a en ps c]) rest := by
          simp [checkRefsScan, hfind, declIdents]
        rw [step]
        constructor
        · intro h
          refine ⟨⟨?_, ?_⟩, h⟩
          · intro r hr
            simpa [declIdents] using hrefs0 r hr
          · intro ident' e' heq
            cases heq
        · intro ⟨_, h⟩
          exact h
      | .value v =>
        have step : checkRefsScan known (Node.value v :: rest) =
            checkRefsScan (known ++ declIdents [Node.value v]) rest := by
          simp [checkRefsScan, hfind, declIdents]
        rw [step]
        constructor
        · intro h
          refine ⟨⟨?_, ?_⟩, h⟩
          · intro r hr
            simpa [declIdents] using hrefs0 r hr
          · intro ident' e' heq
            cases heq
        · intro ⟨_, h⟩
          exact h
    · obtain ⟨r, hr⟩ := Option.ne_none_iff_exists'.mp hfind
      have hmem1 : r ∈ stmtRefs x := List.mem_of_find?_eq_some hr
      have hmem2 : r ∉ known := by simpa using List.find?_some hr
      constructor
      · intro h
        exfalso
        cases x <;> simp [checkRefsScan, hr] at h
      · intro ⟨hc, _⟩
        exact absurd (by simpa [declIdents] using hc.1 r hmem1) hmem2.elim

theorem nodup_iff_no_split_mem {α : Type} (l : List α) :
    l.Nodup ↔ ∀ pre a post, l = pre ++ a :: post → a ∉ pre := by
  constructor
  · intro hnd pre a post hsplit ha
    subst hsplit
    rw [List.nodup_append] at hnd
    exact hnd.2.2 ha (by simp)
  · induction l with
    | nil => intro _; exact List.nodup_nil
    | cons b t ih =>
      intro h
      refine List.nodup_cons.mpr ⟨?_, ?_⟩
      · intro hbt
        obtain ⟨m, s, hms⟩ := List.append_of_mem hbt
        exact h (b :: m) b s (by simp [hms]) (by simp)
      · refine ih ?_
        intro pre a post hsplit ha
        exact h (b :: pre) a post (by simp [hsplit]) (by simp [ha])

theorem declIdents_split (sts : List Node) (p : List String) (a : String) (s : List String)
    (h : declIdents sts = p ++ a :: s) :
    ∃ pre e post, sts = pre ++ .decl a e :: post ∧ declIdents pre = p := by
  induction sts generalizing p with
  | nil => simp [declIdents] at h
  | cons st rest ih =>
    match st with
    | .decl i e =>
      have h' : i :: declIdents rest = p ++ a :: s := by
        simpa [declIdents, List.filterMap_cons] using h
      match p, h' with
      | [], h' =>
        have ha : i = a := by simpa using congrArg (fun l => l.head?) h'
        exact ⟨[], e, rest, by simp [ha], by simp [declIdents]⟩
      | p0 :: p', h' =>
        have hp0 : i = p0 := by simpa using congrArg (fun l => l.head?) h'
        have htl : declIdents rest = p' ++ a :: s := by
          simpa using congrArg (fun l => l.tail) h'
        obtain ⟨pre, e', post, hsp, hdi⟩ := ih p' htl
        exact ⟨.decl i e :: pre, e', post, by simp [hsp],
          by rw [declIdents_cons_decl, hdi, hp0]⟩
    | .command ac en ps c =>
      have h' : declIdents rest = p ++ a :: s := by
        rwa [declIdents_cons_command] at h
      obtain ⟨pre, e', post, hsp, hdi⟩ := ih p h'
      exact ⟨.command ac en ps c :: pre, e', post, by simp [hsp],
        by rwa [declIdents_cons_command]⟩
    | .value v =>
      have h' : declIdents rest = p ++ a :: s := by
        rwa [declIdents_cons_value] at h
      obtain ⟨pre, e', post, hsp, hdi⟩ := ih p h'
      exact ⟨.value v :: pre, e', post, by simp [hsp],
        by rwa [declIdents_cons_value]⟩

theorem checkRefsSpec_go_eq_scan (sts : List Node) (i : Nat) (hi : i ≤ sts.length) :
    checkRefsSpec.go sts i = checkRefsScan (declIdents (sts.take i)) (sts.drop i) := by
  by_cases h : i < sts.length
  · have hdrop : sts.drop i = sts.get ⟨i, h⟩ :: sts.drop (i + 1) := by
      exact List.drop_eq_getElem_cons h
    have htake : sts.take (i + 1) = sts.take i ++ [sts.get ⟨i, h⟩] := by
      rw [List.take_succ, List.getElem?_eq_getElem h]
      rfl
    rw [checkRefsSpec.go, dif_pos h, hdrop]
    have hrec := checkRefsSpec_go_eq_scan sts (i + 1) h
    match hst : sts.get ⟨i, h⟩ with
    | .decl ident e =>
      cases hfind : firstUndefinedRef (declIdents (sts.take i)) (stmtRefs (Node.decl ident e)) with
      | some r => simp [checkRefsScan, hfind]
      | none =>
        by_cases hmem : ident ∈ declIdents (sts.take i)
        · simp [checkRefsScan, hfind, hmem]
        · have hids : declIdents (sts.take (i + 1)) =
              declIdents (sts.take i) ++ [ident] := by
            rw [htake, declIdents_append, hst, declIdents_cons_decl]
            simp [declIdents]
          simp [checkRefsScan, hfind, hmem, hrec, hids]
    | .command a en ps c =>
      cases hfind : firstUndefinedRef (declIdents (sts.take i)) (stmtRefs (Node.command a en ps c)) with
      | some r => simp [checkRefsScan, hfind]
      | none =>
        have hids : declIdents (sts.take (i + 1)) = declIdents (sts.take i) := by
          rw [htake, declIdents_append, hst, declIdents_cons_command]
          simp [declIdents]
        simp [checkRefsScan, hfind, hrec, hids]
    | .value v =>
      cases hfind : firstUndefinedRef (declIdents (sts.take i)) (stmtRefs (Node.value v)) with
      | some r => simp [checkRefsScan, hfind]
      | none =>
        have hids : declIdents (sts.take (i + 1)) = declIdents (sts.take i) := by
          rw [htake, declIdents_append, hst, declIdents_cons_value]
          simp [declIdents]
        simp [checkRefsScan, hfind, hrec, hids]
  · have hlen : i = sts.length := le_antisymm hi (not_lt.mp h)
    rw [checkRefsSpec.go, dif_neg h]
    rw [List.drop_eq_nil_of_le (le_of_eq hlen.symm)]
    simp [checkRefsScan]
  termination_by sts.length - i

theorem nodup_declIdents_iff (sts : List Node) :
    (declIdents sts).Nodup ↔
      ∀ pre ident e post, sts = pre ++ .decl ident e :: post → ident ∉ declIdents pre := by
  rw [nodup_iff_no_split_mem]
  constructor
  · intro h pre ident e post hsplit
    exact h (declIdents pre) ident (declIdents (post))
      (by simp [hsplit, declIdents_append, declIdents, List.filterMap_cons])
  · intro h p a s hsplit
    obtain ⟨pre, e, post, hsp, hdi⟩ := declIdents_split sts p a s hsplit
    rw [← hdi]
    exact h pre a e post hsp

/-- C1.  `checkInvalidReferenceDeclarationsPass` is a single forward pass from
an empty known-identifier set: it agrees with the claim's first-offence
description (`checkRefsSpec`, which recomputes at each statement the
identifiers declared strictly earlier, failing with the undefined-reference
message at the first statement whose node — or, for a declaration, its
expression — uses a ref not declared earlier, and with the already-assigned
message at the first redeclaration); its errors are exactly the spec scan's
errors; and it succeeds, returning the template and env unchanged, iff every
ref of every statement is declared strictly earlier and the declaration
identifiers are distinct. -/
theorem checkInvalidReferenceDeclarations_correct (tpl : Template) (cenv : CompileEnv) :
    (checkRefsScan [] tpl.statements = checkRefsSpec tpl.statements) ∧
    (∀ e, checkInvalidReferenceDeclarationsPass tpl cenv = .err e ↔
        checkRefsSpec tpl.statements = .error e) ∧
    (checkInvalidReferenceDeclarationsPass tpl cenv = .ok (tpl, cenv) ↔
      ((declIdents tpl.statements).Nodup ∧
        ∀ pre st post, tpl.statements = pre ++ st :: post →
          ∀ r ∈ stmtRefs st, r ∈ declIdents pre)) := by
  have hspec : checkRefsScan [] tpl.statements = checkRefsSpec tpl.statements := by
    have := checkRefsSpec_go_eq_scan tpl.statements 0 (Nat.zero_le _)
    simp only [List.take_zero, List.drop_zero,
      show declIdents [] = [] from rfl] at this
    rw [checkRefsSpec, ← this]
  have hok : checkRefsScan [] tpl.statements = .ok () ↔
      ((declIdents tpl.statements).Nodup ∧
        ∀ pre st post, tpl.statements = pre ++ st :: post →
          ∀ r ∈ stmtRefs st, r ∈ declIdents pre) := by
    rw [checkRefsScan_ok_iff]
    constructor
    · intro h
      constructor
      · rw [nodup_declIdents_iff]
        intro pre ident e post hs
        have := (h pre (.decl ident e) post hs).2 ident e rfl
        simpa using this
      · intro pre st post hs r hr
        have := (h pre st post hs).1 r hr
        simpa using this
    · intro ⟨hnd, hrefs⟩ pre st post hs
      constructor
      · intro r hr
        simpa using hrefs pre st post hs r hr
      · intro ident e heq hc
        subst heq
        exact (nodup_declIdents_iff tpl.statements).mp hnd pre ident e post hs
          (by simpa using hc)
  refine ⟨hspec, ?_, ?_⟩
  · intro e
    rw [← hspec]
    cases hscan : checkRefsScan [] tpl.statements with
    | ok u => cases u; simp [checkInvalidReferenceDeclarationsPass, hscan]
    | error e' => simp [checkInvalidReferenceDeclarationsPass, hscan]
  · rw [← hok]
    cases hscan : checkRefsScan [] tpl.statements with
    | ok u => cases u; simp [checkInvalidReferenceDeclarationsPass, hscan]
    | error e' => simp [checkInvalidReferenceDeclarationsPass, hscan]

end Awless

namespace Awless

/-! ### inlineVariableValuePass -/

/-- `ReplaceRef(ident, v)` on an expression node: every matching ref in a
command node's params or in a value node is replaced. -/
def replaceRefExpr (ident : String) (v : CompositeValue) : Node → Node
  | .command a e ps c => .command a e (ps.map (fun kv => (kv.1, cvReplaceRef ident v kv.2))) c
  | .value w => .value (cvReplaceRef ident v w)
  | n => n

/-- `extractExpressionNode` composed with `ReplaceRef`: for a declaration the
replacement acts on its expression, otherwise on the node itself. -/
def replaceRefStmt (ident : String) (v : CompositeValue) : Node → Node
  | .decl i e => .decl i (replaceRefExpr ident v e)
  | n => replaceRefExpr ident v n

/-- The in-place mutation of the Go inner loop (`for j := i + 1; …`): keep the
statements up to index `i` and apply `ReplaceRef` to every strictly later
statement. -/
def replaceTail (cur : List Node) (i : Nat) (ident : String) (v : CompositeValue) :
    List Node :=
  cur.take (i + 1) ++ (cur.drop (i + 1)).map (replaceRefStmt ident v)

theorem length_replaceTail (cur : List Node) (i : Nat) (ident : String) (v : CompositeValue) :
    (replaceTail cur i ident v).length = cur.length := by
  simp [replaceTail]
  omega

/-- The outer loop of `inlineVariableValuePass` over the statement list, with
the loop index explicit: at a declaration whose expression is a value node,
record the resolved value (when non-nil), mutate all later statements with
`ReplaceRef`, and drop the statement when the value is resolved; every other
statement is appended to the new statement list. -/
def inlineGoAux (cur : List Node) (i : Nat) (out : List Node)
    (vars : List (String × String)) : List Node × List (String × String) :=
  if h : i < cur.length then
    match cur.get ⟨i, h⟩ with
    | .decl ident (.value v) =>
      let vars' := match cvValue v with
        | some s => vars ++ [(ident, s)]
        | none => vars
      if cvIsResolved v then
        inlineGoAux (replaceTail cur i ident v) (i + 1) out vars'
      else
        inlineGoAux (replaceTail cur i ident v) (i + 1)
          (out ++ [.decl ident (.value v)]) vars'
    | st => inlineGoAux cur (i + 1) (out ++ [st]) vars
  else (out, vars)
  termination_by cur.length - i
  decreasing_by
    · rw [length_replaceTail]; omega
    · rw [length_replaceTail]; omega
    · omega

/-- `inlineVariableValuePass`: build the new statement list and accumulate the
resolved variables into the env. -/
def inlineVariableValuePass : PassFun := fun tpl cenv =>
  let r := inlineGoAux tpl.statements 0 [] []
  .ok (⟨r.1⟩, { cenv with resolvedVariables := cenv.resolvedVariables ++ r.2 })

/-- Stated from the claim: the new statement list drops each declaration whose
expression is a resolved value node, recording its (identifier, value) pair;
for a declaration with a value-node expression (resolved or not) every later
statement has `ReplaceRef(ident, value)` applied to its expression; all other
statements are copied through in order. -/
def inlineSpec : List Node → List Node × List (String × String)
  | [] => ([], [])
  | .decl ident (.value v) :: rest =>
    let r := inlineSpec (rest.map (replaceRefStmt ident v))
    match cvValue v with
    | some s => (r.1, (ident, s) :: r.2)
    | none => (.decl ident (.value v) :: r.1, r.2)
  | st :: rest =>
    let r := inlineSpec rest
    (st :: r.1, r.2)
  termination_by sts => sts.length
  decreasing_by
    · simp
    · simp

theorem replaceTail_append (pre : List Node) (st : Node) (rest : List Node)
    (ident : String) (v : CompositeValue) :
    replaceTail (pre ++ st :: rest) pre.length ident v =
      (pre ++ [st]) ++ rest.map (replaceRefStmt ident v) := by
  unfold replaceTail
  rw [show pre.length + 1 = pre.length + 1 from rfl, List.take_append, List.drop_append]
  simp

theorem inlineGoAux_eq_spec (n : Nat) : ∀ (suf : List Node), suf.length = n →
    ∀ (pre out : List Node) (vars : List (String × String)),
      inlineGoAux (pre ++ suf) pre.length out vars =
        (out ++ (inlineSpec suf).1, vars ++ (inlineSpec suf).2) := by
  induction n using Nat.strong_induction_on with
  | _ n ih =>
    intro suf hlen pre out vars
    match suf with
    | [] =>
      rw [inlineGoAux]
      rw [dif_neg (by simp)]
      simp [inlineSpec]
    | st :: rest =>
      have hi : pre.length < (pre ++ st :: rest).length := by simp
      have hget : (pre ++ st :: rest).get ⟨pre.length, hi⟩ = st := by
        simp [List.getElem_append_right]
      have hlen' : pre.length + 1 = (pre ++ [st]).length := by simp
      have hn : rest.length + 1 = n := by simpa using hlen
      rw [inlineGoAux, dif_pos hi, hget]
      match st with
      | .decl ident (.value v) =>
        cases hv : cvValue v with
        | some s =>
          have hres : cvIsResolved v = true := by simp [cvIsResolved, hv]
          simp only [hv, hres, replaceTail_append, reduceIte]
          rw [hlen']
          rw [ih rest.length (by omega) (rest.map (replaceRefStmt ident v)) (by simp)
            (pre ++ [Node.decl ident (Node.value v)]) out (vars ++ [(ident, s)])]
          rw [inlineSpec]
          simp [hv]
        | none =>
          have hres : cvIsResolved v = false := by simp [cvIsResolved, hv]
          simp only [hv, hres, Bool.false_eq_true, replaceTail_append, reduceIte]
          rw [hlen']
          rw [ih rest.length (by omega) (rest.map (replaceRefStmt ident v)) (by simp)
            (pre ++ [Node.decl ident (Node.value v)])
            (out ++ [Node.decl ident (Node.value v)]) vars]
          rw [inlineSpec]
          simp [hv]
      | .decl ident (.command a en ps c) =>
        show inlineGoAux (pre ++ Node.decl ident (Node.command a en ps c) :: rest)
          (pre.length + 1) (out ++ [Node.decl ident (Node.command a en ps c)]) vars = _
        rw [show pre ++ Node.decl ident (Node.command a en ps c) :: rest =
          (pre ++ [Node.decl ident (Node.command a en ps c)]) ++ rest by simp]
        rw [hlen']
        rw [ih rest.length (by omega) rest rfl (pre ++ [Node.decl ident (Node.command a en ps c)])
          (out ++ [Node.decl ident (Node.command a en ps c)]) vars]
        rw [inlineSpec]
        simp
        all_goals
          intro i9 v9 hcontra
          simp at hcontra
      | .decl ident (.decl i2 e2) =>
        show inlineGoAux (pre ++ Node.decl ident (Node.decl i2 e2) :: rest)
          (pre.length + 1) (out ++ [Node.decl ident (Node.decl i2 e2)]) vars = _
        rw [show pre ++ Node.decl ident (Node.decl i2 e2) :: rest =
          (pre ++ [Node.decl ident (Node.decl i2 e2)]) ++ rest by simp]
        rw [hlen']
        rw [ih rest.length (by omega) rest rfl (pre ++ [Node.decl ident (Node.decl i2 e2)])
          (out ++ [Node.decl ident (Node.decl i2 e2)]) vars]
        rw [inlineSpec]
        simp
        all_goals
          intro i9 v9 hcontra
          simp at hcontra
      | .command a en ps c =>
        show inlineGoAux (pre ++ Node.command a en ps c :: rest)
          (pre.length + 1) (out ++ [Node.command a en ps c]) vars = _
        rw [show pre ++ Node.command a en ps c :: rest =
          (pre ++ [Node.command a en ps c]) ++ rest by simp]
        rw [hlen']
        rw [ih rest.length (by omega) rest rfl (pre ++ [Node.command a en ps c])
          (out ++ [Node.command a en ps c]) vars]
        rw [inlineSpec]
        simp
        all_goals
          intro i9 v9 hcontra
          simp at hcontra
      | .value w =>
        show inlineGoAux (pre ++ Node.value w :: rest)
          (pre.length + 1) (out ++ [Node.value w]) vars = _
        rw [show pre ++ Node.value w :: rest =
          (pre ++ [Node.value w]) ++ rest by simp]
        rw [hlen']
        rw [ih rest.length (by omega) rest rfl (pre ++ [Node.value w])
          (out ++ [Node.value w]) vars]
        rw [inlineSpec]
        simp
        all_goals
          intro i9 v9 hcontra
          simp at hcontra

theorem inlineSpec_no_resolved_decl (n : Nat) : ∀ (suf : List Node), suf.length = n →
    ∀ st ∈ (inlineSpec suf).1, ∀ ident v, st = .decl ident (.value v) →
      cvIsResolved v = false := by
  induction n using Nat.strong_induction_on with
  | _ n ih =>
    intro suf hlen st hmem ident v hst
    match suf with
    | [] => simp [inlineSpec] at hmem
    | .decl i0 (.value v0) :: rest =>
      have hn : rest.length + 1 = n := by simpa using hlen
      rw [inlineSpec] at hmem
      cases hv : cvValue v0 with
      | some s =>
        simp only [hv] at hmem
        exact ih rest.length (by omega) _ (by simp) st hmem ident v hst
      | none =>
        simp only [hv] at hmem
        rcases List.mem_cons.mp hmem with heq | hmem'
        · rw [heq] at hst
          injection hst with h1 h2
          injection h2 with h3
          subst h3
          simp [cvIsResolved, hv]
        · exact ih rest.length (by omega) _ (by simp) st hmem' ident v hst
    | .decl i0 (.command a en ps c) :: rest =>
      have hn : rest.length + 1 = n := by simpa using hlen
      rw [inlineSpec] at hmem
      rcases List.mem_cons.mp hmem with heq | hmem'
      · rw [heq] at hst
        injection hst with h1 h2
        cases h2
      · exact ih rest.length (by omega) rest rfl st hmem' ident v hst
      all_goals
        intro i9 v9 hcontra
        simp at hcontra
    | .decl i0 (.decl i2 e2) :: rest =>
      have hn : rest.length + 1 = n := by simpa using hlen
      rw [inlineSpec] at hmem
      rcases List.mem_cons.mp hmem with heq | hmem'
      · rw [heq] at hst
        injection hst with h1 h2
        cases h2
      · exact ih rest.length (by omega) rest rfl st hmem' ident v hst
      all_goals
        intro i9 v9 hcontra
        simp at hcontra
    | .command a en ps c :: rest =>
      have hn : rest.length + 1 = n := by simpa using hlen
      rw [inlineSpec] at hmem
      rcases List.mem_cons.mp hmem with heq | hmem'
      · rw [heq] at hst
        cases hst
      · exact ih rest.length (by omega) rest rfl st hmem' ident v hst
      all_goals
        intro i9 v9 hcontra
        simp at hcontra
    | .value w :: rest =>
      have hn : rest.length + 1 = n := by simpa using hlen
      rw [inlineSpec] at hmem
      rcases List.mem_cons.mp hmem with heq | hmem'
      · rw [heq] at hst
        cases hst
      · exact ih rest.length (by omega) rest rfl st hmem' ident v hst

      all_goals
        intro i9 v9 hcontra
        simp at hcontra
/-- C2.  `inlineVariableValuePass` computes exactly the claim's description
(`inlineSpec`): each declaration whose expression is a resolved value node is
dropped and its (identifier, value) pair appended to the env's resolved
variables; every declaration with a value-node expression, resolved or not,
applies `ReplaceRef(ident, value)` to all later statements; everything else is
copied through in its original order.  Consequently no declaration of a
resolved value node survives in the output. -/
theorem inlineVariableValue_correct (tpl : Template) (cenv : CompileEnv) :
    (inlineVariableValuePass tpl cenv =
      .ok (⟨(inlineSpec tpl.statements).1⟩,
        { cenv with resolvedVariables :=
            cenv.resolvedVariables ++ (inlineSpec tpl.statements).2 })) ∧
    (∀ st ∈ (inlineSpec tpl.statements).1, ∀ ident v,
        st = .decl ident (.value v) → cvIsResolved v = false) := by
  constructor
  · have h := inlineGoAux_eq_spec tpl.statements.length tpl.statements rfl [] [] []
    simp only [List.nil_append, List.length_nil] at h
    simp [inlineVariableValuePass, h]
  · exact inlineSpec_no_resolved_decl tpl.statements.length tpl.statements rfl

end Awless

namespace Awless

/-! ### Cache laws -/

theorem updA_updA {α : Type} (l : List (String × α)) (k : String) (v v' : α) :
    updA (updA l k v) k v' = updA l k v' := by
  induction l with
  | nil => simp [updA]
  | cons h t ih =>
    by_cases hk : h.1 = k
    · simp [updA, hk]
    · simp [updA, hk, ih]

/-- C5.  Once `Get(k, loader)` has run a loader for the current slot, any
subsequent `Get(k, loader')` leaves the cache unchanged, does not invoke
`loader'` and returns the stored (result, err) — with or without a loader —
whereas after `Store(k, v)` the slot is replaced: a loader-less `Get(k)`
returns (v, nil) and the next `Get(k, loader)` re-invokes its loader. -/
theorem cacheGet_loader_once_and_store_resets {α : Type} (c : FCache α) (key : String)
    (f : Loader α) (res : Option α × Option String) (c' : FCache α)
    (h : cacheGet c key [f] = (res, c', true)) (v : α) (g : Loader α) :
    (cacheGet c' key [g] = (res, c', false)) ∧
    (cacheGet c' key [] = (res, c', false)) ∧
    (cacheGet (cacheStore c' key (some v)) key [] =
      ((some v, none), cacheStore c' key (some v), false)) ∧
    ((cacheGet (cacheStore c' key (some v)) key [g]).2.2 = true ∧
     (cacheGet (cacheStore c' key (some v)) key [g]).1 = g ()) := by
  simp only [cacheGet] at h
  by_cases hf : ((lookupA c.cached key).getD ⟨false, none, none⟩).fired
  · simp [hf] at h
  · simp only [hf, Bool.false_eq_true, if_false, reduceIte] at h
    have hres' : res = ((f ()).1, (f ()).2) := by
      have h1 := congrArg (fun p => p.1) h
      simpa using h1.symm
    have hcc : c' = ⟨updA c.cached key ⟨true, (f ()).1, (f ()).2⟩⟩ := by
      have h2 := congrArg (fun p => p.2.1) h
      simpa using h2.symm
    have hlook : lookupA c'.cached key = some ⟨true, (f ()).1, (f ()).2⟩ := by
      rw [hcc]
      exact lookupA_updA_self _ _ _
    refine ⟨?_, ?_, ?_, ?_⟩
    · simp only [cacheGet, hlook, Option.getD_some]
      rw [hres', hcc]
      simp [updA_updA]
    · simp only [cacheGet, hlook, Option.getD_some]
      rw [hres', hcc]
      simp [updA_updA]
    · have hstore : lookupA (cacheStore c' key (some v)).cached key =
          some ⟨false, some v, none⟩ := lookupA_updA_self _ _ _
      simp only [cacheGet, hstore, Option.getD_some]
      simp [cacheStore, updA_updA]
    · have hstore : lookupA (cacheStore c' key (some v)).cached key =
          some ⟨false, some v, none⟩ := lookupA_updA_self _ _ _
      simp [cacheGet, hstore]

/-- C5 witness: on an empty cache a loader-running Get stores its result, and
the theorem's conclusions hold at that slot. -/
theorem cacheGet_loader_once_and_store_resets_witness :
    (cacheGet (⟨[("k", ⟨true, some "r", none⟩)]⟩ : FCache String) "k" []
      = ((some "r", none), ⟨[("k", ⟨true, some "r", none⟩)]⟩, false)) := by
  have h := cacheGet_loader_once_and_store_resets (newFCache (α := String)) "k"
    (fun _ => (some "r", none)) (some "r", none)
    ⟨[("k", ⟨true, some "r", none⟩)]⟩ (by rfl) "v" (fun _ => (none, none))
  exact h.2.1

/-- C10.  A loader-less `Get(k)` on an absent key returns (nil, nil) but
creates an empty unfired slot for `k` — the cache state changes, so it is not
a pure read — and a later `Get(k, loader)` still invokes its loader. -/
theorem cacheGet_absent_no_loader (c : FCache String) (key : String)
    (h : lookupA c.cached key = none) (g : Loader String) :
    (cacheGet c key [] =
      ((none, none), ⟨updA c.cached key ⟨false, none, none⟩⟩, false)) ∧
    (lookupA (cacheGet c key []).2.1.cached key = some ⟨false, none, none⟩) ∧
    ((cacheGet c key []).2.1 ≠ c) ∧
    ((cacheGet c key []).2.1.cached ≠ c.cached) ∧
    ((cacheGet (cacheGet c key []).2.1 key [g]).2.2 = true ∧
     (cacheGet (cacheGet c key []).2.1 key [g]).1 = g ()) := by
  have hget : cacheGet c key [] =
      ((none, none), ⟨updA c.cached key ⟨false, none, none⟩⟩, false) := by
    simp [cacheGet, h]
  have hlook : lookupA (cacheGet c key []).2.1.cached key = some ⟨false, none, none⟩ := by
    rw [hget]
    exact lookupA_updA_self _ _ _
  have hneq : (cacheGet c key []).2.1.cached ≠ c.cached := by
    intro heq
    rw [heq, h] at hlook
    cases hlook
  refine ⟨hget, hlook, ?_, hneq, ?_⟩
  · intro heq
    exact hneq (congrArg FCache.cached heq)
  · rw [hget]
    simp [cacheGet, lookupA_updA_self]

/-- C10 witness: the empty cache at key "k". -/
theorem cacheGet_absent_no_loader_witness :
    cacheGet (newFCache (α := String)) "k" [] =
      ((none, none), ⟨[("k", ⟨false, none, none⟩)]⟩, false) :=
  (cacheGet_absent_no_loader newFCache "k" (by rfl) (fun _ => (some "x", none))).1

end Awless

namespace Awless

/-! ### The fetcher (`fetch` package) -/

/-- A fetch function (`fetch.Func`): receives the shared fetch cache and
returns the fetched resources, the opaque `Objects` payload and an error,
together with the possibly updated cache (fetch functions may use the cache).
Resources and payloads are embedded as strings. -/
def FetchFn : Type :=
  FCache String → (List String × Option String × Option String) × FCache String

/-- The fetcher: its registered fetch functions and its cache. -/
structure Fetcher where
  fetchFuncs : List (String × FetchFn)
  cache : FCache String

/-- `fetcher.fetchResource`: run the registered fetch function for the type,
or produce a "no fetch func defined" error with no resources; then
unconditionally store the opaque `Objects` payload under `"<type>_objects"`. -/
def fetchResource (f : Fetcher) (resourceType : String) :
    (List String × Option String × Option String) × Fetcher :=
  let r := match lookupA f.fetchFuncs resourceType with
    | some fn => fn f.cache
    | none => (([], none,
        some ("no fetch func defined for resource type '" ++ resourceType ++ "'")),
        f.cache)
  (r.1, { f with cache := cacheStore r.2 (resourceType ++ "_objects") r.1.2.1 })

/-- `fetcher.FetchByType`: synchronous single fetch.  The graph (here the
resource list) is always a value; on error it is the empty graph. -/
def fetchByType (f : Fetcher) (resourceType : String) :
    (List String × Option String) × Fetcher :=
  let r := fetchResource f resourceType
  match r.1.2.2 with
  | some e => (([], some e), r.2)
  | none => ((r.1.1, none), r.2)

/-- C9.  For a resource type with no registered fetch function, `FetchByType`
returns the empty graph together with an error whose text contains
"no fetch func defined"; and for every type — registered or not, succeeding or
failing — a graph value is returned and the opaque `Objects` payload of the
fetch is stored in the cache under key `"<type>_objects"` (in a fresh unfired
slot holding the payload and no error). -/
theorem fetchByType_correct (f : Fetcher) (t : String)
    (hnone : lookupA f.fetchFuncs t = none) (g : Fetcher) (u : String) :
    (fetchByType f t =
      (([], some ("no fetch func defined for resource type '" ++ t ++ "'")),
        { f with cache := cacheStore f.cache (t ++ "_objects") none })) ∧
    ("no fetch func defined for resource type '" ++ t ++ "'" =
      "no fetch func defined" ++ (" for resource type '" ++ t ++ "'")) ∧
    (lookupA (fetchByType g u).2.cache.cached (u ++ "_objects") =
      some ⟨false, (fetchResource g u).1.2.1, none⟩) := by
  refine ⟨?_, ?_, ?_⟩
  · simp [fetchByType, fetchResource, hnone]
  · rw [← String.append_assoc, ← String.append_assoc]
    rfl
  · have hcache : (fetchByType g u).2.cache = (fetchResource g u).2.cache := by
      unfold fetchByType
      cases hm : (fetchResource g u).1.2.2 <;> simp [hm]
    rw [hcache]
    unfold fetchResource
    exact lookupA_updA_self _ _ _

/-- C9 witness: a fetcher with no registered functions at type "instance". -/
theorem fetchByType_correct_witness :
    fetchByType ⟨[], newFCache⟩ "instance" =
      (([], some ("no fetch func defined for resource type 'instance'")),
        ⟨[], ⟨[("instance_objects", ⟨false, none, none⟩)]⟩⟩) := by
  have h := (fetchByType_correct ⟨[], newFCache⟩ "instance" (by rfl)
    ⟨[], newFCache⟩ "x").1
  simpa [cacheStore, newFCache, updA] using h

end Awless

namespace Awless

/-! ### injectCommandsPass, validateCommandsPass, processAndValidateParamsPass -/

/-- The Go panic message of a type assertion `x.(ast.Command)` on a nil
interface value. -/
def nilAssertPanicMsg : String :=
  "interface conversion: interface \x7b\x7d is nil, not ast.Command"

/-- The Go panic message of calling a nil function value. -/
def nilFuncPanicMsg : String :=
  "runtime error: invalid memory address or nil pointer dereference"

/-- The statement walk of `injectCommandsPass` over the command nodes
(directly or as a declaration's expression).  The Go code runs
`node.Command = lookup(key).(ast.Command)` before its nil check, so a nil
lookup result panics in the type assertion; the `inject: cannot find command`
error return is unreachable. -/
def injectGo (lookup : String → Option Command) : List Node → PassResult (List Node)
  | [] => .ok []
  | .command a en ps _ :: rest =>
    match lookup (a ++ en) with
    | none => .panic nilAssertPanicMsg
    | some _ =>
      match injectGo lookup rest with
      | .ok rest2 => .ok (.command a en ps (some (a ++ en)) :: rest2)
      | .err e => .err e
      | .panic m => .panic m
  | .decl i (.command a en ps _) :: rest =>
    match lookup (a ++ en) with
    | none => .panic nilAssertPanicMsg
    | some _ =>
      match injectGo lookup rest with
      | .ok rest2 => .ok (.decl i (.command a en ps (some (a ++ en))) :: rest2)
      | .err e => .err e
      | .panic m => .panic m
  | st :: rest =>
    match injectGo lookup rest with
    | .ok rest2 => .ok (st :: rest2)
    | .err e => .err e
    | .panic m => .panic m

/-- `injectCommandsPass`: bind the looked-up command to every command node. -/
def injectCommandsPass : PassFun := fun tpl cenv =>
  match cenv.lookupCommandFunc with
  | none => .panic nilFuncPanicMsg
  | some lookup =>
    match injectGo lookup tpl.statements with
    | .ok sts => .ok (⟨sts⟩, cenv)
    | .err e => .err e
    | .panic m => .panic m

/-- Binding of the looked-up command to every command node (the success-path
result of `injectCommandsPass`). -/
def bindCommands : List Node → List Node :=
  List.map (fun st => match st with
    | .command a en ps _ => .command a en ps (some (a ++ en))
    | .decl i (.command a en ps _) => .decl i (.command a en ps (some (a ++ en)))
    | st => st)

/-- The command nodes of a statement list in visit order: a statement's own
command node or a declaration's command expression. -/
def cmdNodesOf (sts : List Node) : List (String × String × List (String × CompositeValue)) :=
  sts.filterMap (fun st => match st with
    | .command a en ps _ => some (a, en, ps)
    | .decl _ (.command a en ps _) => some (a, en, ps)
    | _ => none)

/-- The param keys whose value carries refs (`p.(ast.WithRefs)` with non-empty
`GetRefs`), in param order. -/
def refsKeys (ps : List (String × CompositeValue)) : List String :=
  (ps.filter (fun kv => !(cvRefs kv.2).isEmpty)).map (fun kv => kv.1)

/-- The error accumulation loop of `validateCommandsPass`: per command node,
look up the command (error when absent), and when it has the ValidateCommand
capability append its errors prefixed with "action entity: ". -/
def validateCollectGo (lookup : String → Option Command) :
    List (String × String × List (String × CompositeValue)) → List String →
      Except String (List String)
  | [], errs => .ok errs
  | (a, en, ps) :: rest, errs =>
    match lookup (a ++ en) with
    | none => .error ("validate: cannot find command for '" ++ a ++ en ++ "'")
    | some cmd =>
      let newErrs := match cmd.validateCap with
        | some vf => (vf ps (refsKeys ps)).map (fun m => a ++ " " ++ en ++ ": " ++ m)
        | none => []
      validateCollectGo lookup rest (errs ++ newErrs)

/-- `validateCommandsPass`: collect the validation errors over the whole
template, then fail with the singular or plural message. -/
def validateCommandsPass : PassFun := fun tpl cenv =>
  match cenv.lookupCommandFunc with
  | none => .panic nilFuncPanicMsg
  | some lookup =>
    match validateCollectGo lookup (cmdNodesOf tpl.statements) [] with
    | .error e => .err e
    | .ok [] => .ok (tpl, cenv)
    | .ok [e] => .err ("validation error: " ++ e)
    | .ok errs => .err ("validation errors:\n\t- " ++ String.intercalate "\n\t- " errs)

/-- Stated from the claim: the validation errors of one command node — empty
when the command lacks the ValidateCommand capability, otherwise its errors
prefixed with "action entity: ". -/
def nodeValidationErrs (lookup : String → Option Command)
    (node : String × String × List (String × CompositeValue)) : List String :=
  match lookup (node.1 ++ node.2.1) with
  | none => []
  | some cmd =>
    match cmd.validateCap with
    | some vf => (vf node.2.2 (refsKeys node.2.2)).map
        (fun m => node.1 ++ " " ++ node.2.1 ++ ": " ++ m)
    | none => []

/-- The params of a command node after `processAndValidateParamsPass` inserted
a hole named "entity.key" for each missing required key. -/
def processedParams (rule : PRule) (en : String)
    (ps : List (String × CompositeValue)) : List (String × CompositeValue) :=
  (rule.missing (ps.map (fun kv => kv.1))).foldl
    (fun acc e => updA acc e (.hole (en ++ "." ++ e) [])) ps

/-- Per-node work of `processAndValidateParamsPass`: look up the command and
its Params rule, insert a hole for each missing required key, then re-validate
the key set. -/
def processNode (lookup : String → Option Command) (a en : String)
    (ps : List (String × CompositeValue)) :
    PassResult (List (String × CompositeValue)) :=
  match lookup (a ++ en) with
  | none => .err ("process params: cannot find command for '" ++ a ++ en ++ "'")
  | some cmd =>
    match cmd.ruleCap with
    | none => .err (a ++ " " ++ en ++ ": command does not implement param rules")
    | some rule =>
      let ps2 := processedParams rule en ps
      match rule.validate (ps2.map (fun kv => kv.1)) with
      | some msg => .err (a ++ " " ++ en ++ ": " ++ msg)
      | none => .ok ps2

/-- The statement walk of `processAndValidateParamsPass` (visitCommandNodesE):
rebuild each command node with its processed params, stopping at the first
failing node. -/
def processStmts (lookup : String → Option Command) : List Node → PassResult (List Node)
  | [] => .ok []
  | .command a en ps c :: rest =>
    match processNode lookup a en ps with
    | .err e => .err e
    | .panic m => .panic m
    | .ok ps2 =>
      match processStmts lookup rest with
      | .ok rest2 => .ok (.command a en ps2 c :: rest2)
      | .err e => .err e
      | .panic m => .panic m
  | .decl i (.command a en ps c) :: rest =>
    match processNode lookup a en ps with
    | .err e => .err e
    | .panic m => .panic m
    | .ok ps2 =>
      match processStmts lookup rest with
      | .ok rest2 => .ok (.decl i (.command a en ps2 c) :: rest2)
      | .err e => .err e
      | .panic m => .panic m
  | st :: rest =>
    match processStmts lookup rest with
    | .ok rest2 => .ok (st :: rest2)
    | .err e => .err e
    | .panic m => .panic m

/-- `processAndValidateParamsPass`. -/
def processAndValidateParamsPass : PassFun := fun tpl cenv =>
  match cenv.lookupCommandFunc with
  | none => .panic nilFuncPanicMsg
  | some lookup =>
    match processStmts lookup tpl.statements with
    | .ok sts => .ok (⟨sts⟩, cenv)
    | .err e => .err e
    | .panic m => .panic m

end Awless

namespace Awless

/-! ### C7: injectCommands panics instead of returning its defensive error -/

theorem injectGo_never_errs (lookup : String → Option Command) :
    ∀ (sts : List Node) (e : String), injectGo lookup sts ≠ .err e := by
  intro sts
  induction sts with
  | nil => intro e h; cases h
  | cons st rest ih =>
    intro e h
    match st with
    | .command a en ps c =>
      rw [injectGo] at h
      cases hl : lookup (a ++ en) with
      | none => rw [hl] at h; cases h
      | some cmd =>
        rw [hl] at h
        cases hr : injectGo lookup rest with
        | ok r => rw [hr] at h; cases h
        | err e2 => exact ih e2 hr
        | panic m => rw [hr] at h; cases h
    | .decl i (.command a en ps c) =>
      rw [injectGo] at h
      cases hl : lookup (a ++ en) with
      | none => rw [hl] at h; cases h
      | some cmd =>
        rw [hl] at h
        cases hr : injectGo lookup rest with
        | ok r => rw [hr] at h; cases h
        | err e2 => exact ih e2 hr
        | panic m => rw [hr] at h; cases h
    | .decl i (.value v) =>
      rw [injectGo] at h
      · cases hr : injectGo lookup rest with
        | ok r => rw [hr] at h; cases h
        | err e2 => exact ih e2 hr
        | panic m => rw [hr] at h; cases h
      all_goals
        intros
        simp_all
    | .decl i (.decl i2 e2) =>
      rw [injectGo] at h
      · cases hr : injectGo lookup rest with
        | ok r => rw [hr] at h; cases h
        | err e2 => exact ih e2 hr
        | panic m => rw [hr] at h; cases h
      all_goals
        intros
        simp_all
    | .value v =>
      rw [injectGo] at h
      · cases hr : injectGo lookup rest with
        | ok r => rw [hr] at h; cases h
        | err e2 => exact ih e2 hr
        | panic m => rw [hr] at h; cases h
      all_goals
        intros
        simp_all

theorem injectGo_all_found (lookup : String → Option Command) :
    ∀ sts : List Node,
      (∀ node ∈ cmdNodesOf sts, (lookup (node.1 ++ node.2.1)).isSome) →
      injectGo lookup sts = .ok (bindCommands sts) := by
  intro sts
  induction sts with
  | nil => intro _; rfl
  | cons st rest ih =>
    intro h
    have hrest : ∀ node ∈ cmdNodesOf rest, (lookup (node.1 ++ node.2.1)).isSome := by
      intro node hn
      refine h node ?_
      match st with
      | .command a en ps c => simp [cmdNodesOf, List.filterMap_cons] at hn ⊢; right; exact hn
      | .decl i (.command a en ps c) => simp [cmdNodesOf, List.filterMap_cons] at hn ⊢; right; exact hn
      | .decl i (.value v) => simpa [cmdNodesOf, List.filterMap_cons] using hn
      | .decl i (.decl i2 e2) => simpa [cmdNodesOf, List.filterMap_cons] using hn
      | .value v => simpa [cmdNodesOf, List.filterMap_cons] using hn
    match st with
    | .command a en ps c =>
      have hfound : (lookup (a ++ en)).isSome := by
        refine h (a, en, ps) ?_
        simp [cmdNodesOf, List.filterMap_cons]
      obtain ⟨cmd, hcmd⟩ := Option.isSome_iff_exists.mp hfound
      rw [injectGo, hcmd, ih hrest]
      rfl
    | .decl i (.command a en ps c) =>
      have hfound : (lookup (a ++ en)).isSome := by
        refine h (a, en, ps) ?_
        simp [cmdNodesOf, List.filterMap_cons]
      obtain ⟨cmd, hcmd⟩ := Option.isSome_iff_exists.mp hfound
      rw [injectGo, hcmd, ih hrest]
      rfl
    | .decl i (.value v) =>
      rw [injectGo, ih hrest]
      · rfl
      all_goals
        intros
        simp_all
    | .decl i (.decl i2 e2) =>
      rw [injectGo, ih hrest]
      · rfl
      all_goals
        intros
        simp_all
    | .value v =>
      rw [injectGo, ih hrest]
      · rfl
      all_goals
        intros
        simp_all

/-- C7.  The code, not the claim: `injectCommandsPass` can never return an
error — its `inject: cannot find command` return is dead code — because the
type assertion `lookup(key).(ast.Command)` runs first and panics on a nil
lookup result; on the concrete failing input (a `create instance` node with a
lookup that knows no command) the pass panics; when every command is found the
pass binds the looked-up command to every command node and succeeds. -/
theorem injectCommands_panics_on_missing_command :
    (∀ (tpl : Template) (cenv : CompileEnv) (e : String),
        injectCommandsPass tpl cenv ≠ .err e) ∧
    (injectCommandsPass ⟨[.command "create" "instance" [] none]⟩
        ⟨some (fun _ => none), none, none, [], [], []⟩ = .panic nilAssertPanicMsg) ∧
    (∀ (tpl : Template) (cenv : CompileEnv) (lookup : String → Option Command),
        cenv.lookupCommandFunc = some lookup →
        (∀ node ∈ cmdNodesOf tpl.statements, (lookup (node.1 ++ node.2.1)).isSome) →
        injectCommandsPass tpl cenv = .ok (⟨bindCommands tpl.statements⟩, cenv)) := by
  refine ⟨?_, ?_, ?_⟩
  · intro tpl cenv e h
    rw [injectCommandsPass] at h
    cases hl : cenv.lookupCommandFunc with
    | none => rw [hl] at h; cases h
    | some lookup =>
      simp only [hl] at h
      cases hr : injectGo lookup tpl.statements with
      | ok r => rw [hr] at h; cases h
      | err e2 => exact injectGo_never_errs lookup tpl.statements e2 hr
      | panic m => rw [hr] at h; cases h
  · rfl
  · intro tpl cenv lookup hl h
    rw [injectCommandsPass, hl]
    simp only [injectGo_all_found lookup tpl.statements h]

/-! ### C6: validateCommands error aggregation -/

theorem validateCollectGo_ok (lookup : String → Option Command) :
    ∀ (nodes : List (String × String × List (String × CompositeValue)))
      (errs : List String),
      (∀ node ∈ nodes, (lookup (node.1 ++ node.2.1)).isSome) →
      validateCollectGo lookup nodes errs =
        .ok (errs ++ (nodes.map (nodeValidationErrs lookup)).flatten) := by
  intro nodes
  induction nodes with
  | nil => intro errs _; simp [validateCollectGo]
  | cons node rest ih =>
    intro errs h
    obtain ⟨a, en, ps⟩ := node
    have hfound : (lookup (a ++ en)).isSome := h (a, en, ps) (by simp)
    obtain ⟨cmd, hcmd⟩ := Option.isSome_iff_exists.mp hfound
    have hrest : ∀ node ∈ rest, (lookup (node.1 ++ node.2.1)).isSome := by
      intro n hn
      exact h n (by simp [hn])
    rw [validateCollectGo, hcmd]
    cases hv : cmd.validateCap with
    | none => simp [nodeValidationErrs, hcmd, hv, ih _ hrest]
    | some vf => simp [nodeValidationErrs, hcmd, hv, ih _ hrest]

/-- C6.  With every command found, `validateCommandsPass` collects, over the
command nodes in template order, the validation errors of each command that
exposes ValidateCommand (others silently skipped), each prefixed with
"action entity: "; it succeeds when none were collected, fails with
"validation error: e" when exactly one was, and with "validation errors:"
followed by newline-tab-dash-joined errors when several were. -/
theorem validateCommands_correct (tpl : Template) (cenv : CompileEnv)
    (lookup : String → Option Command)
    (hl : cenv.lookupCommandFunc = some lookup)
    (h : ∀ node ∈ cmdNodesOf tpl.statements, (lookup (node.1 ++ node.2.1)).isSome) :
    validateCommandsPass tpl cenv =
      match ((cmdNodesOf tpl.statements).map (nodeValidationErrs lookup)).flatten with
      | [] => .ok (tpl, cenv)
      | [e] => .err ("validation error: " ++ e)
      | errs => .err ("validation errors:\n\t- " ++ String.intercalate "\n\t- " errs) := by
  rw [validateCommandsPass, hl]
  simp only [validateCollectGo_ok lookup _ [] h, List.nil_append]
  cases hf : ((cmdNodesOf tpl.statements).map (nodeValidationErrs lookup)).flatten with
  | nil => rfl
  | cons e es => cases es <;> rfl

/-- C6 witness (the spec's scenario 7): two command nodes each yielding one
validation error produce the plural, newline-tab-dash joined message. -/
theorem validateCommands_correct_witness :
    validateCommandsPass
      ⟨[.command "create" "instance" [] none, .command "create" "subnet" [] none]⟩
      ⟨some (fun _ => some ⟨none, some (fun _ _ => ["boom"])⟩), none, none, [], [], []⟩ =
      .err ("validation errors:\n\t- create instance: boom\n\t- create subnet: boom") := by
  have h := validateCommands_correct
    ⟨[.command "create" "instance" [] none, .command "create" "subnet" [] none]⟩
    ⟨some (fun _ => some ⟨none, some (fun _ _ => ["boom"])⟩), none, none, [], [], []⟩
    (fun _ => some ⟨none, some (fun _ _ => ["boom"])⟩) rfl
    (by intro node hn; rfl)
  simpa using h

end Awless

namespace Awless

/-! ### C3: processAndValidateParams -/

/-- Per-statement result of the params pass: command nodes (directly or as a
declaration's expression) are rebuilt with their processed params; other
statements pass through. -/
def stmtProcessed (lookup : String → Option Command) (st : Node) : PassResult Node :=
  match st with
  | .command a en ps c =>
    match processNode lookup a en ps with
    | .ok ps2 => .ok (.command a en ps2 c)
    | .err e => .err e
    | .panic m => .panic m
  | .decl i (.command a en ps c) =>
    match processNode lookup a en ps with
    | .ok ps2 => .ok (.decl i (.command a en ps2 c))
    | .err e => .err e
    | .panic m => .panic m
  | st => .ok st

theorem lookupA_foldl_updA_not_mem (g : String → CompositeValue) (ms : List String) :
    ∀ (ps : List (String × CompositeValue)) (k : String), k ∉ ms →
      lookupA (ms.foldl (fun acc e => updA acc e (g e)) ps) k = lookupA ps k := by
  induction ms with
  | nil => intro ps k _; rfl
  | cons m rest ih =>
    intro ps k hk
    have hkm : k ≠ m := by intro he; exact hk (by simp [he])
    have hkr : k ∉ rest := by intro he; exact hk (by simp [he])
    rw [List.foldl_cons, ih _ k hkr, lookupA_updA_other _ _ _ _ (Ne.symm hkm)]

theorem lookupA_foldl_updA_mem (g : String → CompositeValue) (ms : List String) :
    ∀ (ps : List (String × CompositeValue)) (k : String), k ∈ ms →
      lookupA (ms.foldl (fun acc e => updA acc e (g e)) ps) k = some (g k) := by
  induction ms with
  | nil => intro ps k hk; cases hk
  | cons m rest ih =>
    intro ps k hk
    rw [List.foldl_cons]
    by_cases hkr : k ∈ rest
    · exact ih _ k hkr
    · have hkm : k = m := by
        rcases List.mem_cons.mp hk with he | he
        · exact he
        · exact absurd he hkr
      subst hkm
      rw [lookupA_foldl_updA_not_mem g rest _ k hkr]
      exact lookupA_updA_self _ _ _

theorem processStmts_cons_ok (lookup : String → Option Command) (st n : Node)
    (rest : List Node) (h : stmtProcessed lookup st = .ok n) :
    processStmts lookup (st :: rest) =
      match processStmts lookup rest with
      | .ok r => .ok (n :: r)
      | .err e => .err e
      | .panic m => .panic m := by
  match st with
  | .command a en ps c =>
    rw [stmtProcessed] at h
    cases hp : processNode lookup a en ps with
    | ok ps2 =>
      rw [hp] at h
      injection h with h2
      subst h2
      rw [processStmts, hp]
    | err e => rw [hp] at h; cases h
    | panic m => rw [hp] at h; cases h
  | .decl i (.command a en ps c) =>
    rw [stmtProcessed] at h
    cases hp : processNode lookup a en ps with
    | ok ps2 =>
      rw [hp] at h
      injection h with h2
      subst h2
      rw [processStmts, hp]
    | err e => rw [hp] at h; cases h
    | panic m => rw [hp] at h; cases h
  | .decl i (.value v) =>
    rw [stmtProcessed] at h
    · injection h with h2
      subst h2
      rw [processStmts]
      all_goals
        intros
        simp_all
    all_goals
      intros
      simp_all
  | .decl i (.decl i2 e2) =>
    rw [stmtProcessed] at h
    · injection h with h2
      subst h2
      rw [processStmts]
      all_goals
        intros
        simp_all
    all_goals
      intros
      simp_all
  | .value w =>
    rw [stmtProcessed] at h
    · injection h with h2
      subst h2
      rw [processStmts]
      all_goals
        intros
        simp_all
    all_goals
      intros
      simp_all

theorem processStmts_cons_err (lookup : String → Option Command) (st : Node)
    (e : String) (rest : List Node) (h : stmtProcessed lookup st = .err e) :
    processStmts lookup (st :: rest) = .err e := by
  match st with
  | .command a en ps c =>
    rw [stmtProcessed] at h
    cases hp : processNode lookup a en ps with
    | ok ps2 => rw [hp] at h; cases h
    | err e2 =>
      rw [hp] at h
      injection h with h2
      subst h2
      rw [processStmts, hp]
    | panic m => rw [hp] at h; cases h
  | .decl i (.command a en ps c) =>
    rw [stmtProcessed] at h
    cases hp : processNode lookup a en ps with
    | ok ps2 => rw [hp] at h; cases h
    | err e2 =>
      rw [hp] at h
      injection h with h2
      subst h2
      rw [processStmts, hp]
    | panic m => rw [hp] at h; cases h
  | .decl i (.value v) =>
    rw [stmtProcessed] at h
    · cases h
    all_goals
      intros
      simp_all
  | .decl i (.decl i2 e2) =>
    rw [stmtProcessed] at h
    · cases h
    all_goals
      intros
      simp_all
  | .value w =>
    rw [stmtProcessed] at h
    · cases h
    all_goals
      intros
      simp_all

theorem processStmts_append_ok (lookup : String → Option Command) :
    ∀ (pre outPre : List Node),
      List.Forall₂ (fun st n => stmtProcessed lookup st = .ok n) pre outPre →
      ∀ rest : List Node,
        processStmts lookup (pre ++ rest) =
          match processStmts lookup rest with
          | .ok r => .ok (outPre ++ r)
          | .err e => .err e
          | .panic m => .panic m := by
  intro pre outPre hfa
  induction hfa with
  | nil =>
    intro rest
    cases hr : processStmts lookup rest <;> simp [hr]
  | cons hst hfa2 ih =>
    intro rest
    rw [List.cons_append, processStmts_cons_ok lookup _ _ _ hst, ih rest]
    cases hr : processStmts lookup rest <;> simp

end Awless

namespace Awless

theorem processStmts_all_ok (lookup : String → Option Command)
    (sts outs : List Node)
    (h : List.Forall₂ (fun st n => stmtProcessed lookup st = .ok n) sts outs) :
    processStmts lookup sts = .ok outs := by
  have happ := processStmts_append_ok lookup sts outs h []
  simpa [processStmts] using happ

/-- C3.  With a command lookup defined, `processAndValidateParamsPass` gives
each command node, for each required key its Params rule reports missing, a
new hole named "entity.key" (other keys are untouched); it then re-validates
the node's resulting key set against the rule, failing with the
"action entity: " prefixed message on the first statement whose node still
violates the rule, and otherwise rebuilding every command node with its
processed params. -/
theorem processAndValidateParams_correct (cenv : CompileEnv)
    (lookup : String → Option Command)
    (hl : cenv.lookupCommandFunc = some lookup) :
    (∀ (rule : PRule) (en : String) (ps : List (String × CompositeValue)),
      (∀ k ∈ rule.missing (ps.map (fun kv => kv.1)),
        lookupA (processedParams rule en ps) k = some (.hole (en ++ "." ++ k) [])) ∧
      (∀ k, k ∉ rule.missing (ps.map (fun kv => kv.1)) →
        lookupA (processedParams rule en ps) k = lookupA ps k)) ∧
    (∀ (a en : String) (ps : List (String × CompositeValue)) (cmd : Command)
        (rule : PRule) (msg : String),
      lookup (a ++ en) = some cmd → cmd.ruleCap = some rule →
      rule.validate ((processedParams rule en ps).map (fun kv => kv.1)) = some msg →
      processNode lookup a en ps = .err (a ++ " " ++ en ++ ": " ++ msg)) ∧
    (∀ (pre outPre : List Node) (bad : Node) (post : List Node) (e : String),
      List.Forall₂ (fun st n => stmtProcessed lookup st = .ok n) pre outPre →
      stmtProcessed lookup bad = .err e →
      processAndValidateParamsPass ⟨pre ++ bad :: post⟩ cenv = .err e) ∧
    (∀ (sts outs : List Node),
      List.Forall₂ (fun st n => stmtProcessed lookup st = .ok n) sts outs →
      processAndValidateParamsPass ⟨sts⟩ cenv = .ok (⟨outs⟩, cenv)) := by
  refine ⟨?_, ?_, ?_, ?_⟩
  · intro rule en ps
    constructor
    · intro k hk
      exact lookupA_foldl_updA_mem (fun e => .hole (en ++ "." ++ e) [])
        (rule.missing (ps.map (fun kv => kv.1))) ps k hk
    · intro k hk
      exact lookupA_foldl_updA_not_mem (fun e => .hole (en ++ "." ++ e) [])
        (rule.missing (ps.map (fun kv => kv.1))) ps k hk
  · intro a en ps cmd rule msg hcmd hrule hval
    simp only [processNode, hcmd, hrule, hval]
  · intro pre outPre bad post e hfa hbad
    simp only [processAndValidateParamsPass, hl]
    rw [processStmts_append_ok lookup pre outPre hfa (bad :: post),
      processStmts_cons_err lookup bad e post hbad]
  · intro sts outs hfa
    simp only [processAndValidateParamsPass, hl]
    rw [processStmts_all_ok lookup sts outs hfa]

/-- C3 witness (the spec's scenario 5): `create instance` whose rule requires
"type" gets the hole "instance.type" inserted and, the rule then satisfied,
the pass succeeds with the processed node. -/
theorem processAndValidateParams_correct_witness :
    processAndValidateParamsPass ⟨[.command "create" "instance" [] none]⟩
      ⟨some (fun _ => some ⟨some ⟨fun keys => if keys.contains "type" then [] else ["type"],
          fun _ => none⟩, none⟩), none, none, [], [], []⟩ =
      .ok (⟨[.command "create" "instance" [("type", .hole "instance.type" [])] none]⟩,
        ⟨some (fun _ => some ⟨some ⟨fun keys => if keys.contains "type" then [] else ["type"],
          fun _ => none⟩, none⟩), none, none, [], [], []⟩) := by
  have h := (processAndValidateParams_correct
    ⟨some (fun _ => some ⟨some ⟨fun keys => if keys.contains "type" then [] else ["type"],
        fun _ => none⟩, none⟩), none, none, [], [], []⟩
    (fun _ => some ⟨some ⟨fun keys => if keys.contains "type" then [] else ["type"],
        fun _ => none⟩, none⟩) rfl).2.2.2
  exact h [.command "create" "instance" [] none]
    [.command "create" "instance" [("type", .hole "instance.type" [])] none]
    (List.Forall₂.cons (by rfl) List.Forall₂.nil)

end Awless

namespace Awless

/-! ### resolveMissingHolesPass -/

/-- The expression node a statement exposes to the hole visitor: a
declaration's expression, otherwise the node itself. -/
def exprOfStmt : Node → Node
  | .decl _ e => e
  | st => st

/-- `GetHoles` of an expression node: the (name, candidates) entries of its
values, in param order. -/
def nodeHoles : Node → List (String × List String)
  | .command _ _ ps _ => (ps.map (fun kv => cvHoles kv.2)).flatten
  | .value v => cvHoles v
  | .decl _ _ => []

/-- All hole entries of a template, in visit order. -/
def holeEntriesOf (sts : List Node) : List (String × List String) :=
  (sts.map (fun st => nodeHoles (exprOfStmt st))).flatten

/-- One step of the `uniqueHoles` merge of `resolveMissingHolesPass`: the Go
code first resets `uniqueHoles[k]` to nil, then appends each candidate not
already contained. -/
def mergeHoles (acc : List (String × List String)) (entry : String × List String) :
    List (String × List String) :=
  entry.2.foldl
    (fun m vv =>
      let cur := (lookupA m entry.1).getD []
      if cur.contains vv then m else updA m entry.1 (cur ++ [vv]))
    (updA acc entry.1 [])

/-- The `uniqueHoles` map after visiting every hole entry of the template. -/
def uniqueHolesOf (sts : List Node) : List (String × List String) :=
  (holeEntriesOf sts).foldl mergeHoles []

/-- Computable lexicographic comparison of char lists (the order
`sort.Strings` uses). -/
def charsLe : List Char → List Char → Bool
  | [], _ => true
  | _ :: _, [] => false
  | x :: xs, y :: ys =>
    if x < y then true
    else if y < x then false
    else charsLe xs ys

/-- Computable lexicographic string comparison. -/
def strLe (a b : String) : Bool := charsLe a.data b.data

/-- The propositional form of `strLe`. -/
def strLeR (a b : String) : Prop := strLe a b = true

instance : DecidableRel strLeR := fun a b => instDecidableEqBool (strLe a b) true

theorem charsLe_iff : ∀ xs ys : List Char, charsLe xs ys = true ↔ ¬ ys < xs := by
  intro xs
  induction xs with
  | nil =>
    intro ys
    constructor
    · intro _ h
      cases h
    · intro _
      rfl
  | cons x xs ih =>
    intro ys
    match ys with
    | [] =>
      constructor
      · intro h
        cases h
      · intro h
        exact absurd List.Lex.nil h
    | y :: ys2 =>
      by_cases h1 : x < y
      · have hxy : charsLe (x :: xs) (y :: ys2) = true := by
          simp [charsLe, h1]
        rw [hxy]
        constructor
        · intro _ hlt
          cases hlt with
          | cons h3 => exact lt_irrefl x h1
          | rel h3 => exact lt_asymm h1 h3
        · intro _
          rfl
      · by_cases h2 : y < x
        · have hxy : charsLe (x :: xs) (y :: ys2) = false := by
            simp [charsLe, h1, h2]
          rw [hxy]
          constructor
          · intro h
            cases h
          · intro h
            exact absurd (List.Lex.rel h2) h
        · have heq : y = x := le_antisymm (not_lt.mp h1) (not_lt.mp h2)
          subst heq
          have hxy : charsLe (y :: xs) (y :: ys2) = charsLe xs ys2 := by
            simp [charsLe, h1]
          rw [hxy, ih ys2]
          constructor
          · intro h hlt
            cases hlt with
            | cons h3 => exact h h3
            | rel h3 => exact lt_irrefl y h3
          · intro h hlt
            exact h (List.Lex.cons hlt)

theorem strLe_iff (a b : String) : strLe a b = true ↔ a ≤ b := by
  have hlt_iff : b < a ↔ b.data < a.data := String.lt_iff_toList_lt
  rw [strLe, charsLe_iff a.data b.data, ← hlt_iff]
  exact not_lt

instance : IsTotal String strLeR :=
  ⟨fun a b => by
    simp only [strLeR, strLe_iff]
    exact le_total a b⟩

instance : IsTrans String strLeR :=
  ⟨fun a b c hab hbc => by
    simp only [strLeR, strLe_iff] at hab hbc ⊢
    exact le_trans hab hbc⟩

/-- The sorted distinct still-open hole names (`sort.Strings(sortedHoles)`). -/
def sortedHolesOf (sts : List Node) : List String :=
  List.insertionSort strLeR ((uniqueHolesOf sts).map (fun kv => kv.1))

/-- The (name, candidates) arguments the missing-holes callback is invoked
with, in invocation order. -/
def missingHoleInvocations (sts : List Node) : List (String × List String) :=
  (sortedHolesOf sts).map (fun k => (k, (lookupA (uniqueHolesOf sts) k).getD []))

/-- `ProcessHoles(fillers)` on a value: a hole whose name the fillers map
resolves becomes the resolved value, reported in the processed map. -/
def cvProcessHoles (fillers : List (String × String)) (v : CompositeValue) :
    CompositeValue × List (String × String) :=
  match v with
  | .hole n cands =>
    match lookupA fillers n with
    | some s => (.str s, [(n, s)])
    | none => (.hole n cands, [])
  | v => (v, [])

/-- `ProcessHoles` over a node's values. -/
def nodeProcessHoles (fillers : List (String × String)) : Node → Node × List (String × String)
  | .command a en ps c =>
    let rs := ps.map (fun kv => (kv.1, cvProcessHoles fillers kv.2))
    (.command a en (rs.map (fun r => (r.1, r.2.1))) c, (rs.map (fun r => r.2.2)).flatten)
  | .value v =>
    let r := cvProcessHoles fillers v
    (.value r.1, r.2)
  | .decl i e =>
    let r := nodeProcessHoles fillers e
    (.decl i r.1, r.2)

/-- The hole-processing visit over the whole template, accumulating the
processed (name, value) resolutions. -/
def processHolesTpl (sts : List Node) (fillers : List (String × String)) :
    List Node × List (String × String) :=
  let rs := sts.map (nodeProcessHoles fillers)
  (rs.map (fun r => r.1), (rs.map (fun r => r.2)).flatten)

/-- `resolveMissingHolesPass`: collect the distinct still-open hole names with
their candidates, iterate them in sorted order invoking the missing-holes
callback to build the filler map, then revisit every node with holes,
accumulating the resolutions into the env's processed fillers. -/
def resolveMissingHolesPass : PassFun := fun tpl cenv =>
  let fillers := match cenv.missingHolesFunc with
    | some mh => (sortedHolesOf tpl.statements).map
        (fun k => (k, mh k ((lookupA (uniqueHolesOf tpl.statements) k).getD [])))
    | none => []
  let r := processHolesTpl tpl.statements fillers
  .ok (⟨r.1⟩, { cenv with processedFillers := cenv.processedFillers ++ r.2 })

end Awless

namespace Awless

theorem keys_updA_mem {α : Type} (l : List (String × α)) (k : String) (v : α)
    (h : k ∈ l.map (fun kv => kv.1)) :
    (updA l k v).map (fun kv => kv.1) = l.map (fun kv => kv.1) := by
  induction l with
  | nil => simp at h
  | cons hd t ih =>
    by_cases hk : hd.1 = k
    · simp [updA, hk]
    · have h' : k ∈ t.map (fun kv => kv.1) := by
        rw [List.map_cons, List.mem_cons] at h
        rcases h with he | he
        · exact absurd he.symm hk
        · exact he
      simp [updA, hk, ih h']

theorem keys_updA_not_mem {α : Type} (l : List (String × α)) (k : String) (v : α)
    (h : k ∉ l.map (fun kv => kv.1)) :
    (updA l k v).map (fun kv => kv.1) = l.map (fun kv => kv.1) ++ [k] := by
  induction l with
  | nil => simp [updA]
  | cons hd t ih =>
    have hk : hd.1 ≠ k := by
      intro he
      exact h (by simp [he])
    have h' : k ∉ t.map (fun kv => kv.1) := by
      intro he
      exact h (by simp [he])
    simp [updA, hk, ih h']

theorem mem_keys_updA {α : Type} (l : List (String × α)) (k a : String) (v : α) :
    a ∈ (updA l k v).map (fun kv => kv.1) ↔ a ∈ l.map (fun kv => kv.1) ∨ a = k := by
  by_cases h : k ∈ l.map (fun kv => kv.1)
  · rw [keys_updA_mem l k v h]
    constructor
    · exact Or.inl
    · intro hc
      rcases hc with hc | hc
      · exact hc
      · rw [hc]; exact h
  · rw [keys_updA_not_mem l k v h]
    simp

theorem nodup_keys_updA {α : Type} (l : List (String × α)) (k : String) (v : α)
    (h : (l.map (fun kv => kv.1)).Nodup) :
    ((updA l k v).map (fun kv => kv.1)).Nodup := by
  by_cases hm : k ∈ l.map (fun kv => kv.1)
  · rwa [keys_updA_mem l k v hm]
  · rw [keys_updA_not_mem l k v hm]
    rw [List.nodup_append]
    refine ⟨h, List.nodup_singleton k, ?_⟩
    intro a ha hb
    rw [List.mem_singleton] at hb
    subst hb
    exact hm ha

theorem keys_mergeHoles (acc : List (String × List String)) (e : String × List String) :
    (mergeHoles acc e).map (fun kv => kv.1) =
      (updA acc e.1 []).map (fun kv => kv.1) := by
  rw [mergeHoles]
  generalize hstart : updA acc e.1 ([] : List String) = start
  have hmem : e.1 ∈ start.map (fun kv => kv.1) := by
    rw [← hstart]
    exact (mem_keys_updA acc e.1 e.1 []).mpr (Or.inr rfl)
  clear hstart
  induction e.2 generalizing start with
  | nil => rfl
  | cons vv rest ih =>
    rw [List.foldl_cons]
    by_cases hc : (((lookupA start e.1).getD []).contains vv)
    · simp only [hc, if_true, reduceIte]
      exact ih start hmem
    · simp only [hc, Bool.false_eq_true, if_false, reduceIte]
      have hkeys := keys_updA_mem start e.1 ((lookupA start e.1).getD [] ++ [vv]) hmem
      rw [ih _ (by rw [hkeys]; exact hmem), hkeys]

theorem mem_keys_foldl_mergeHoles (es : List (String × List String)) :
    ∀ (acc : List (String × List String)) (a : String),
      a ∈ ((es.foldl mergeHoles acc).map (fun kv => kv.1)) ↔
        a ∈ acc.map (fun kv => kv.1) ∨ a ∈ es.map (fun kv => kv.1) := by
  induction es with
  | nil => intro acc a; simp
  | cons e rest ih =>
    intro acc a
    rw [List.foldl_cons, ih (mergeHoles acc e) a]
    rw [show (mergeHoles acc e).map (fun kv => kv.1) =
      (updA acc e.1 []).map (fun kv => kv.1) from keys_mergeHoles acc e]
    rw [mem_keys_updA]
    simp [or_assoc, or_comm, or_left_comm]

theorem nodup_keys_foldl_mergeHoles (es : List (String × List String)) :
    ∀ acc : List (String × List String),
      (acc.map (fun kv => kv.1)).Nodup →
      ((es.foldl mergeHoles acc).map (fun kv => kv.1)).Nodup := by
  induction es with
  | nil => intro acc h; exact h
  | cons e rest ih =>
    intro acc h
    rw [List.foldl_cons]
    refine ih (mergeHoles acc e) ?_
    rw [keys_mergeHoles acc e]
    exact nodup_keys_updA acc e.1 [] h

/-- All candidate lists stored in the unique-holes map are deduplicated. -/
def AllValsNodup (m : List (String × List String)) : Prop :=
  ∀ k v, lookupA m k = some v → v.Nodup

theorem allValsNodup_updA (m : List (String × List String)) (k : String)
    (v : List String) (hm : AllValsNodup m) (hv : v.Nodup) :
    AllValsNodup (updA m k v) := by
  intro k2 v2 h2
  by_cases hk : k = k2
  · subst hk
    rw [lookupA_updA_self] at h2
    injection h2 with h3
    subst h3
    exact hv
  · rw [lookupA_updA_other _ _ _ _ hk] at h2
    exact hm k2 v2 h2

theorem allValsNodup_mergeHoles (acc : List (String × List String))
    (e : String × List String) (h : AllValsNodup acc) :
    AllValsNodup (mergeHoles acc e) := by
  rw [mergeHoles]
  generalize hstart : updA acc e.1 ([] : List String) = start
  have hstartNodup : AllValsNodup start := by
    rw [← hstart]
    exact allValsNodup_updA acc e.1 [] h List.nodup_nil
  clear hstart
  induction e.2 generalizing start with
  | nil => exact hstartNodup
  | cons vv rest ih =>
    rw [List.foldl_cons]
    by_cases hc : (((lookupA start e.1).getD []).contains vv)
    · simp only [hc, if_true, reduceIte]
      exact ih start hstartNodup
    · simp only [hc, Bool.false_eq_true, if_false, reduceIte]
      refine ih _ (allValsNodup_updA _ _ _ hstartNodup ?_)
      have hcur : ((lookupA start e.1).getD []).Nodup := by
        cases hcl : lookupA start e.1 with
        | none => simp
        | some cur => simpa using hstartNodup e.1 cur hcl
      have hnm : vv ∉ (lookupA start e.1).getD [] := by
        simpa using hc
      simp [List.nodup_append, hcur, hnm]

theorem allValsNodup_foldl_mergeHoles (es : List (String × List String)) :
    ∀ acc : List (String × List String), AllValsNodup acc →
      AllValsNodup (es.foldl mergeHoles acc) := by
  induction es with
  | nil => intro acc h; exact h
  | cons e rest ih =>
    intro acc h
    rw [List.foldl_cons]
    exact ih (mergeHoles acc e) (allValsNodup_mergeHoles acc e h)

/-- C8.  With a missing-holes callback configured, `resolveMissingHolesPass`
invokes the callback exactly once per distinct still-open hole name — the
invocation-name list is lexicographically sorted and duplicate-free and holds
exactly the hole names occurring in the template — passing each name with its
deduplicated candidate list (the candidates the unique-holes merge associates
with the name); the returned values form the filler map with which every node
with holes is revisited, accumulating resolutions into the env's processed
fillers. -/
theorem resolveMissingHoles_correct (tpl : Template) (cenv : CompileEnv)
    (mh : String → List String → String)
    (hmh : cenv.missingHolesFunc = some mh) :
    (((missingHoleInvocations tpl.statements).map (fun kv => kv.1)).Sorted (· ≤ ·)) ∧
    (((missingHoleInvocations tpl.statements).map (fun kv => kv.1)).Nodup) ∧
    (∀ a, a ∈ (missingHoleInvocations tpl.statements).map (fun kv => kv.1) ↔
        a ∈ (holeEntriesOf tpl.statements).map (fun kv => kv.1)) ∧
    (∀ kc ∈ missingHoleInvocations tpl.statements, kc.2.Nodup) ∧
    (resolveMissingHolesPass tpl cenv =
      .ok (⟨(processHolesTpl tpl.statements
            ((missingHoleInvocations tpl.statements).map
              (fun kc => (kc.1, mh kc.1 kc.2)))).1⟩,
        { cenv with processedFillers := cenv.processedFillers ++
            (processHolesTpl tpl.statements
              ((missingHoleInvocations tpl.statements).map
                (fun kc => (kc.1, mh kc.1 kc.2)))).2 })) := by
  have hnamesEq : (missingHoleInvocations tpl.statements).map (fun kv => kv.1) =
      sortedHolesOf tpl.statements := by
    rw [missingHoleInvocations, List.map_map]
    exact List.map_id _
  have hperm : List.Perm (sortedHolesOf tpl.statements)
      ((uniqueHolesOf tpl.statements).map (fun kv => kv.1)) :=
    List.perm_insertionSort _ _
  refine ⟨?_, ?_, ?_, ?_, ?_⟩
  · rw [hnamesEq]
    have hs := List.sorted_insertionSort strLeR
      ((uniqueHolesOf tpl.statements).map (fun kv => kv.1))
    exact List.Pairwise.imp (fun h => (strLe_iff _ _).mp h) hs
  · rw [hnamesEq]
    refine hperm.nodup_iff.mpr ?_
    exact nodup_keys_foldl_mergeHoles (holeEntriesOf tpl.statements) [] (by simp)
  · intro a
    rw [hnamesEq]
    rw [hperm.mem_iff]
    rw [uniqueHolesOf]
    rw [mem_keys_foldl_mergeHoles (holeEntriesOf tpl.statements) [] a]
    simp
  · intro kc hkc
    rw [missingHoleInvocations] at hkc
    obtain ⟨k, _, hk2⟩ := List.mem_map.mp hkc
    rw [← hk2]
    have hvals : AllValsNodup (uniqueHolesOf tpl.statements) :=
      allValsNodup_foldl_mergeHoles (holeEntriesOf tpl.statements) []
        (by intro k2 v2 h2; cases h2)
    cases hcl : lookupA (uniqueHolesOf tpl.statements) k with
    | none => simp
    | some cur => simpa using hvals k cur hcl
  · rw [resolveMissingHolesPass, hmh]
    simp only [missingHoleInvocations, List.map_map]
    rfl

/-- C8 witness: a template with holes named "b" then "a" in two nodes; the
callback receives them in sorted order a, b and both get filled. -/
theorem resolveMissingHoles_correct_witness :
    resolveMissingHolesPass
      ⟨[.command "create" "instance" [("x", .hole "b" [])] none,
        .command "create" "subnet" [("y", .hole "a" [])] none]⟩
      ⟨none, some (fun k _ => k ++ "!"), none, [], [], []⟩ =
      .ok (⟨[.command "create" "instance" [("x", .str "b!")] none,
          .command "create" "subnet" [("y", .str "a!")] none]⟩,
        ⟨none, some (fun k _ => k ++ "!"), none, [],
          [("b", "b!"), ("a", "a!")], []⟩) := by
  have h := (resolveMissingHoles_correct
    ⟨[.command "create" "instance" [("x", .hole "b" [])] none,
      .command "create" "subnet" [("y", .hole "a" [])] none]⟩
    ⟨none, some (fun k _ => k ++ "!"), none, [], [], []⟩
    (fun k _ => k ++ "!") rfl).2.2.2.2
  rw [h]
  rfl

end Awless

namespace Awless

/-! ### resolveAliasPass and structural equality of templates -/

/-- `ResolveAlias` on one value with the closure built from (entity, key): when
no alias resolver is configured nothing happens; when the resolver returns ""
the alias is collected as unresolved; otherwise the alias value becomes the
resolved string. -/
def resolveAliasVal (af : Option (String → String → String → String))
    (en k : String) (v : CompositeValue) : CompositeValue × List String :=
  match v with
  | .aliasv a =>
    match af with
    | none => (.aliasv a, [])
    | some f =>
      let actual := f en k a
      if actual = "" then (.aliasv a, [a]) else (.str actual, [])
  | v => (v, [])

/-- `ResolveAlias` over one expression node: command params use (entity, key),
value nodes use empty strings. -/
def resolveAliasNode (af : Option (String → String → String → String)) :
    Node → Node × List String
  | .command a en ps c =>
    let rs := ps.map (fun kv => (kv.1, resolveAliasVal af en kv.1 kv.2))
    (.command a en (rs.map (fun r => (r.1, r.2.1))) c, (rs.map (fun r => r.2.2)).flatten)
  | .value v =>
    let r := resolveAliasVal af "" "" v
    (.value r.1, r.2)
  | .decl i e =>
    let r := resolveAliasNode af e
    (.decl i r.1, r.2)

/-- Go's `%q` of a string (quotes; escaping not modelled). -/
def goQuote (s : String) : String := "\"" ++ s ++ "\""

/-- Go's `%q` of a string slice: quoted elements joined by spaces in
brackets. -/
def goQuoteSlice (l : List String) : String :=
  "[" ++ String.intercalate " " (l.map goQuote) ++ "]"

/-- The aliases left unresolved by the pass, in collection order. -/
def emptyResolvOf (af : Option (String → String → String → String))
    (sts : List Node) : List String :=
  ((sts.map (resolveAliasNode af)).map (fun r => r.2)).flatten

/-- `resolveAliasPass`: resolve aliases in place over every expression node,
then fail when any alias resolved to the empty string. -/
def resolveAliasPass : PassFun := fun tpl cenv =>
  let rs := tpl.statements.map (resolveAliasNode cenv.aliasFunc)
  let emptyResolv := (rs.map (fun r => r.2)).flatten
  if emptyResolv.isEmpty then .ok (⟨rs.map (fun r => r.1)⟩, cenv)
  else .err ("cannot resolve aliases: " ++ goQuoteSlice emptyResolv ++
    ". Maybe you need to update your local model with `awless sync` ?")

/-- Structural equality of nodes: equality up to the iteration order of the
Go param maps (params equal as key-value multisets). -/
def nodeEquiv : Node → Node → Prop
  | .command a en ps c, .command a2 en2 ps2 c2 =>
    a = a2 ∧ en = en2 ∧ ps.Perm ps2 ∧ c = c2
  | .value v, .value w => v = w
  | .decl i e, .decl i2 e2 => i = i2 ∧ nodeEquiv e e2
  | _, _ => False

/-- Structural equality of templates. -/
def tplEquiv (t1 t2 : Template) : Prop :=
  List.Forall₂ nodeEquiv t1.statements t2.statements

end Awless

namespace Awless

/-! ### C4: determinism of Compile vs Go map iteration order -/

theorem resolveAliasNode_equiv (af : Option (String → String → String → String)) :
    ∀ n1 n2 : Node, nodeEquiv n1 n2 →
      nodeEquiv (resolveAliasNode af n1).1 (resolveAliasNode af n2).1 ∧
      (resolveAliasNode af n1).2.Perm (resolveAliasNode af n2).2 := by
  intro n1
  induction n1 with
  | command a en ps c =>
    intro n2 h
    match n2 with
    | .command a2 en2 ps2 c2 =>
      obtain ⟨ha, hen, hps, hc⟩ := h
      subst ha; subst hen; subst hc
      have hrs : (ps.map (fun kv => (kv.1, resolveAliasVal af en kv.1 kv.2))).Perm
          (ps2.map (fun kv => (kv.1, resolveAliasVal af en kv.1 kv.2))) :=
        hps.map _
      constructor
      · exact ⟨rfl, rfl, hrs.map _, rfl⟩
      · exact (hrs.map _).flatten
    | .value v => cases h
    | .decl i e => cases h
  | value v =>
    intro n2 h
    match n2 with
    | .value w =>
      have hv : v = w := h
      subst hv
      exact ⟨rfl, List.Perm.refl _⟩
    | .command a2 en2 ps2 c2 => cases h
    | .decl i e => cases h
  | decl i e ih =>
    intro n2 h
    match n2 with
    | .decl i2 e2 =>
      obtain ⟨hi, he⟩ := h
      subst hi
      obtain ⟨h1, h2⟩ := ih e2 he
      exact ⟨⟨rfl, h1⟩, h2⟩
    | .command a2 en2 ps2 c2 => cases h
    | .value v => cases h

theorem resolveAlias_stmts_equiv (af : Option (String → String → String → String)) :
    ∀ sts1 sts2 : List Node, List.Forall₂ nodeEquiv sts1 sts2 →
      (emptyResolvOf af sts1).Perm (emptyResolvOf af sts2) ∧
      List.Forall₂ nodeEquiv
        ((sts1.map (resolveAliasNode af)).map (fun r => r.1))
        ((sts2.map (resolveAliasNode af)).map (fun r => r.1)) := by
  intro sts1 sts2 h
  induction h with
  | nil => exact ⟨List.Perm.refl _, List.Forall₂.nil⟩
  | cons hnode hrest ih =>
    obtain ⟨hn1, hn2⟩ := resolveAliasNode_equiv af _ _ hnode
    obtain ⟨ih1, ih2⟩ := ih
    constructor
    · exact hn2.append ih1
    · exact List.Forall₂.cons hn1 ih2

/-- C4 counterexample.  Structurally equal templates — the same command node
with its two-entry param map in the two iteration orders Go may produce — and
the same env yield different `Compile` errors under the resolveAlias pass: the
unresolved-alias list is quoted in iteration order, so the claimed determinism
"including the order of names inside aggregated error messages" fails on the
code. -/
theorem compile_alias_order_counterexample :
    tplEquiv ⟨[.command "create" "instance"
        [("a", .aliasv "x"), ("b", .aliasv "y")] none]⟩
      ⟨[.command "create" "instance"
        [("b", .aliasv "y"), ("a", .aliasv "x")] none]⟩ ∧
    Compile ⟨[.command "create" "instance"
        [("a", .aliasv "x"), ("b", .aliasv "y")] none]⟩
      ⟨none, none, some (fun _ _ _ => ""), [], [], []⟩ [resolveAliasPass] =
      .err ("cannot resolve aliases: [\"x\" \"y\"]. Maybe you need to update your local model with `awless sync` ?") ∧
    Compile ⟨[.command "create" "instance"
        [("b", .aliasv "y"), ("a", .aliasv "x")] none]⟩
      ⟨none, none, some (fun _ _ _ => ""), [], [], []⟩ [resolveAliasPass] =
      .err ("cannot resolve aliases: [\"y\" \"x\"]. Maybe you need to update your local model with `awless sync` ?") ∧
    ("cannot resolve aliases: [\"x\" \"y\"]. Maybe you need to update your local model with `awless sync` ?" ≠
      "cannot resolve aliases: [\"y\" \"x\"]. Maybe you need to update your local model with `awless sync` ?") := by
  refine ⟨?_, rfl, rfl, by decide⟩
  refine List.Forall₂.cons ?_ List.Forall₂.nil
  exact ⟨rfl, rfl, List.Perm.swap _ _ _, rfl⟩

/-- C4 amended.  `Compile` is deterministic as a function of the concrete
representation; on structurally equal inputs (param maps equal as key-value
multisets) the resolveAlias pass — the source of the aggregated alias lists —
agrees up to the order of names inside the aggregated message: the collected
unresolved-alias lists are permutations of each other, the pass errs on one
input iff it errs on the other, and on success the outputs are structurally
equal with the env returned unchanged. -/
theorem resolveAlias_structural_invariance (t1 t2 : Template) (cenv : CompileEnv)
    (h : tplEquiv t1 t2) :
    (emptyResolvOf cenv.aliasFunc t1.statements).Perm
      (emptyResolvOf cenv.aliasFunc t2.statements) ∧
    ((∃ e1, resolveAliasPass t1 cenv = .err e1) ↔
      (∃ e2, resolveAliasPass t2 cenv = .err e2)) ∧
    (∀ o1 env1, resolveAliasPass t1 cenv = .ok (o1, env1) →
      ∃ o2, resolveAliasPass t2 cenv = .ok (o2, cenv) ∧ env1 = cenv ∧ tplEquiv o1 o2) := by
  obtain ⟨hperm, hout⟩ := resolveAlias_stmts_equiv cenv.aliasFunc
    t1.statements t2.statements h
  have hempty : (emptyResolvOf cenv.aliasFunc t1.statements).isEmpty =
      (emptyResolvOf cenv.aliasFunc t2.statements).isEmpty := by
    rw [Bool.eq_iff_iff]
    simp only [List.isEmpty_iff]
    constructor
    · intro h1
      exact ((h1 ▸ hperm : ([] : List String).Perm _)).symm.eq_nil
    · intro h2
      exact (h2 ▸ hperm : List.Perm _ ([] : List String)).eq_nil
  refine ⟨hperm, ?_, ?_⟩
  · simp only [resolveAliasPass]
    rw [show ((t1.statements.map (resolveAliasNode cenv.aliasFunc)).map
        (fun r => r.2)).flatten = emptyResolvOf cenv.aliasFunc t1.statements from rfl]
    rw [show ((t2.statements.map (resolveAliasNode cenv.aliasFunc)).map
        (fun r => r.2)).flatten = emptyResolvOf cenv.aliasFunc t2.statements from rfl]
    cases he : (emptyResolvOf cenv.aliasFunc t1.statements).isEmpty with
    | true => simp [he, ← hempty]
    | false => simp [he, ← hempty]
  · intro o1 env1 hok
    simp only [resolveAliasPass] at hok
    cases he : (emptyResolvOf cenv.aliasFunc t1.statements).isEmpty with
    | false =>
      rw [show ((t1.statements.map (resolveAliasNode cenv.aliasFunc)).map
        (fun r => r.2)).flatten = emptyResolvOf cenv.aliasFunc t1.statements from rfl] at hok
      rw [he] at hok
      cases hok
    | true =>
      rw [show ((t1.statements.map (resolveAliasNode cenv.aliasFunc)).map
        (fun r => r.2)).flatten = emptyResolvOf cenv.aliasFunc t1.statements from rfl] at hok
      rw [he] at hok
      simp only [if_true, reduceIte] at hok
      have ho1 : o1 = ⟨(t1.statements.map (resolveAliasNode cenv.aliasFunc)).map
          (fun r => r.1)⟩ ∧ env1 = cenv := by
        have h1 := congrArg (fun p => match p with
          | PassResult.ok q => q.1
          | _ => o1) hok
        have h2 := congrArg (fun p => match p with
          | PassResult.ok q => q.2
          | _ => env1) hok
        exact ⟨h1.symm, h2.symm⟩
      refine ⟨⟨(t2.statements.map (resolveAliasNode cenv.aliasFunc)).map
          (fun r => r.1)⟩, ?_, ho1.2, ?_⟩
      · simp only [resolveAliasPass]
        rw [show ((t2.statements.map (resolveAliasNode cenv.aliasFunc)).map
          (fun r => r.2)).flatten = emptyResolvOf cenv.aliasFunc t2.statements from rfl]
        rw [← hempty, he]
        rfl
      · rw [ho1.1]
        exact hout

/-- C4 amended witness: the invariance applied to the two iteration orders of
the counterexample's param map, with a resolver that resolves everything. -/
theorem resolveAlias_structural_invariance_witness :
    ∃ o2, resolveAliasPass
        ⟨[.command "create" "instance"
          [("b", .aliasv "y"), ("a", .aliasv "x")] none]⟩
        ⟨none, none, some (fun _ _ a => a ++ "-id"), [], [], []⟩ =
        .ok (o2, ⟨none, none, some (fun _ _ a => a ++ "-id"), [], [], []⟩) ∧
      (⟨none, none, some (fun _ _ a => a ++ "-id"), [], [], []⟩ : CompileEnv) =
        ⟨none, none, some (fun _ _ a => a ++ "-id"), [], [], []⟩ ∧
      tplEquiv ⟨[.command "create" "instance"
          [("a", .str "x-id"), ("b", .str "y-id")] none]⟩ o2 := by
  have h := (resolveAlias_structural_invariance
    ⟨[.command "create" "instance" [("a", .aliasv "x"), ("b", .aliasv "y")] none]⟩
    ⟨[.command "create" "instance" [("b", .aliasv "y"), ("a", .aliasv "x")] none]⟩
    ⟨none, none, some (fun _ _ a => a ++ "-id"), [], [], []⟩
    (List.Forall₂.cons ⟨rfl, rfl, List.Perm.swap _ _ _, rfl⟩ List.Forall₂.nil)).2.2
  exact h ⟨[.command "create" "instance"
    [("a", .str "x-id"), ("b", .str "y-id")] none]⟩
    ⟨none, none, some (fun _ _ a => a ++ "-id"), [], [], []⟩ rfl

end Awless
